import Mathlib

/-!
Verification development for the book-manager repository.

The definitions below are a shallow embedding of the Python sources
`src/book_manager/auth.py` and `src/book_manager/provider.py`:

* Python `bytes` values are modelled as `List Nat` with every element `< 256`
  where that matters (stated as hypotheses on theorems, not baked in).
* Python `dict` values are modelled as association lists (`List (κ × β)`)
  with insertion-order semantics: `dictInsert` overwrites an existing key in
  place and appends a fresh key at the end, exactly like CPython dicts; `len`
  is the list length, which equals the number of distinct keys because every
  dict in the modelled code starts empty and is only built with `dictInsert`.
* External library primitives (MD5, SHA-256, the AES block cipher, and the
  JWT payload decoder) are parameters bundled in `CryptoPrims`; everything
  the repository itself computes (XOR shuffling, EVP key derivation loop,
  CBC chaining, PKCS#7 padding, base64 framing, chunk reassembly, the cache
  loop) is embedded concretely.
* Fallible Python code (raises) is modelled with `Option`/`Except`; an
  endless `await` loop that runs out of messages is `PageResult.hang`.
-/

/-! ## Association lists as Python dicts -/

def dictGet {κ β : Type} [DecidableEq κ] : List (κ × β) → κ → Option β
  | [], _ => none
  | (k', v') :: r, k => if k' = k then some v' else dictGet r k

def dictInsert {κ β : Type} [DecidableEq κ] : List (κ × β) → κ → β → List (κ × β)
  | [], k, v => [(k, v)]
  | (k', v') :: r, k, v => if k' = k then (k, v) :: r else (k', v') :: dictInsert r k v

def keysOf {κ β : Type} (m : List (κ × β)) : List κ := m.map Prod.fst

theorem dictGet_insert_self {κ β : Type} [DecidableEq κ] (m : List (κ × β)) (k : κ) (v : β) :
    dictGet (dictInsert m k v) k = some v := by
  induction m with
  | nil => simp [dictInsert, dictGet]
  | cons hd tl ih =>
    obtain ⟨k', v'⟩ := hd
    by_cases h : k' = k <;> simp [dictInsert, dictGet, h, ih]

theorem dictGet_insert_ne {κ β : Type} [DecidableEq κ] (m : List (κ × β)) (k k' : κ) (v : β)
    (h : k' ≠ k) : dictGet (dictInsert m k v) k' = dictGet m k' := by
  induction m with
  | nil => simp [dictInsert, dictGet, Ne.symm h]
  | cons hd tl ih =>
    obtain ⟨k₀, v₀⟩ := hd
    by_cases h0 : k₀ = k
    · subst h0
      simp [dictInsert, dictGet, Ne.symm h]
    · by_cases h1 : k₀ = k' <;> simp [dictInsert, dictGet, h0, h1, ih, Ne.symm h, h]

theorem keysOf_insert_of_mem {κ β : Type} [DecidableEq κ] (m : List (κ × β)) (k : κ) (v : β)
    (h : k ∈ keysOf m) : keysOf (dictInsert m k v) = keysOf m := by
  induction m with
  | nil => simp [keysOf] at h
  | cons hd tl ih =>
    obtain ⟨k₀, v₀⟩ := hd
    by_cases h0 : k₀ = k
    · simp [dictInsert, keysOf, h0]
    · simp only [keysOf, List.map_cons, List.mem_cons] at h
      rcases h with h | h
      · exact absurd h.symm h0
      · simp only [dictInsert, h0, if_neg, keysOf, List.map_cons, ite_false]
        rw [show List.map Prod.fst (dictInsert tl k v) = keysOf (dictInsert tl k v) from rfl,
          ih (by simpa [keysOf] using h)]
        rfl

theorem keysOf_insert_of_not_mem {κ β : Type} [DecidableEq κ] (m : List (κ × β)) (k : κ) (v : β)
    (h : k ∉ keysOf m) : keysOf (dictInsert m k v) = keysOf m ++ [k] := by
  induction m with
  | nil => simp [dictInsert, keysOf]
  | cons hd tl ih =>
    obtain ⟨k₀, v₀⟩ := hd
    simp only [keysOf, List.map_cons, List.mem_cons] at h
    push_neg at h
    have hne : ¬ k₀ = k := Ne.symm h.1
    have ih' := ih (by simpa [keysOf] using h.2)
    simp only [dictInsert, hne, if_false, keysOf, List.map_cons]
    rw [show List.map Prod.fst (dictInsert tl k v) = keysOf (dictInsert tl k v) from rfl, ih']
    rfl

theorem dictGet_eq_none_iff {κ β : Type} [DecidableEq κ] (m : List (κ × β)) (k : κ) :
    dictGet m k = none ↔ k ∉ keysOf m := by
  induction m with
  | nil => simp [dictGet, keysOf]
  | cons hd tl ih =>
    obtain ⟨k₀, v₀⟩ := hd
    by_cases h0 : k₀ = k
    · simp [dictGet, keysOf, h0]
    · simp [dictGet, keysOf, h0, ih, Ne.symm h0]

theorem dictGet_isSome_of_mem_keys {κ β : Type} [DecidableEq κ] (m : List (κ × β)) (k : κ)
    (h : k ∈ keysOf m) : ∃ v, dictGet m k = some v := by
  rcases hv : dictGet m k with _ | v
  · exact absurd ((dictGet_eq_none_iff m k).mp hv) (by simp [h])
  · exact ⟨v, rfl⟩

theorem mem_of_dictGet_eq_some {κ β : Type} [DecidableEq κ] (m : List (κ × β)) (k : κ) (v : β)
    (h : dictGet m k = some v) : (k, v) ∈ m := by
  induction m with
  | nil => simp [dictGet] at h
  | cons hd tl ih =>
    obtain ⟨k₀, v₀⟩ := hd
    by_cases h0 : k₀ = k
    · subst h0
      simp [dictGet] at h
      simp [h]
    · simp [dictGet, h0] at h
      exact List.mem_cons_of_mem _ (ih h)

theorem dictGet_eq_some_of_mem {κ β : Type} [DecidableEq κ] (m : List (κ × β)) (k : κ) (v : β)
    (hnd : (keysOf m).Nodup) (h : (k, v) ∈ m) : dictGet m k = some v := by
  induction m with
  | nil => simp at h
  | cons hd tl ih =>
    obtain ⟨k₀, v₀⟩ := hd
    simp only [keysOf, List.map_cons, List.nodup_cons] at hnd
    rcases List.mem_cons.mp h with h | h
    · rw [Prod.ext_iff] at h
      obtain ⟨hk, hv⟩ := h
      subst hk; subst hv
      simp [dictGet]
    · have hk0 : k₀ ≠ k := by
        intro he
        exact hnd.1 (he ▸ (List.mem_map.mpr ⟨(k, v), h, rfl⟩))
      simp [dictGet, hk0, ih (by simpa [keysOf] using hnd.2) h]

theorem mem_iff_dictGet {κ β : Type} [DecidableEq κ] (m : List (κ × β)) (k : κ) (v : β)
    (hnd : (keysOf m).Nodup) : (k, v) ∈ m ↔ dictGet m k = some v :=
  ⟨dictGet_eq_some_of_mem m k v hnd, mem_of_dictGet_eq_some m k v⟩

/-! ## Sorting, modelling Python's `sorted` (ties cannot arise: all sort keys are distinct) -/

def insertSorted {α : Type} (f : α → Nat) (a : α) : List α → List α
  | [] => [a]
  | b :: r => if f a ≤ f b then a :: b :: r else b :: insertSorted f a r

def sortBy {α : Type} (f : α → Nat) (l : List α) : List α := l.foldr (insertSorted f) []

theorem insertSorted_perm {α : Type} (f : α → Nat) (a : α) (l : List α) :
    (insertSorted f a l).Perm (a :: l) := by
  induction l with
  | nil => simp [insertSorted]
  | cons b r ih =>
    by_cases h : f a ≤ f b
    · simp [insertSorted, h]
    · simp only [insertSorted, h, if_false]
      exact (ih.cons b).trans (List.Perm.swap a b r)

theorem sortBy_perm {α : Type} (f : α → Nat) (l : List α) : (sortBy f l).Perm l := by
  induction l with
  | nil => simp [sortBy]
  | cons a r ih => exact (insertSorted_perm f a (sortBy f r)).trans (ih.cons a)

theorem insertSorted_sorted {α : Type} (f : α → Nat) (a : α) (l : List α)
    (h : List.Sorted (fun x y => f x ≤ f y) l) :
    List.Sorted (fun x y => f x ≤ f y) (insertSorted f a l) := by
  induction l with
  | nil => simp [insertSorted]
  | cons b r ih =>
    rw [List.sorted_cons] at h
    by_cases hab : f a ≤ f b
    · simp only [insertSorted, hab, if_true]
      rw [List.sorted_cons]
      refine ⟨fun x hx => ?_, List.sorted_cons.mpr h⟩
      rcases List.mem_cons.mp hx with rfl | hx
      · exact hab
      · exact le_trans hab (h.1 x hx)
    · simp only [insertSorted, hab, if_false]
      rw [List.sorted_cons]
      refine ⟨fun x hx => ?_, ih h.2⟩
      have hx' := (insertSorted_perm f a r).mem_iff.mp hx
      rcases List.mem_cons.mp hx' with rfl | hx''
      · omega
      · exact h.1 x hx''

theorem sortBy_sorted {α : Type} (f : α → Nat) (l : List α) :
    List.Sorted (fun x y => f x ≤ f y) (sortBy f l) := by
  induction l with
  | nil => simp [sortBy]
  | cons a r ih => exact insertSorted_sorted f a (sortBy f r) ih

theorem sortBy_eq_self_of_sorted {α : Type} (f : α → Nat) (l : List α)
    (h : List.Sorted (fun x y => f x ≤ f y) l) : sortBy f l = l := by
  induction l with
  | nil => rfl
  | cons a r ih =>
    rw [List.sorted_cons] at h
    show insertSorted f a (sortBy f r) = a :: r
    rw [ih h.2]
    cases r with
    | nil => rfl
    | cons b r' => simp [insertSorted, h.1 b (by simp)]

theorem sorted_strict_of_nodup_keys {α : Type} (f : α → Nat) (l : List α)
    (hs : List.Sorted (fun x y => f x ≤ f y) l) (hnd : (l.map f).Nodup) :
    List.Sorted (fun x y => f x < f y) l := by
  have h2 : List.Pairwise (fun x y => f x ≠ f y) l := List.pairwise_map.mp hnd
  exact (List.Pairwise.and hs h2).imp (fun h => lt_of_le_of_ne h.1 h.2)

theorem sortBy_eq_of_perm {α : Type} (f : α → Nat) {l m : List α} (hp : l.Perm m)
    (hnd : (l.map f).Nodup) : sortBy f l = sortBy f m := by
  have hperm : (sortBy f l).Perm (sortBy f m) :=
    (sortBy_perm f l).trans (hp.trans (sortBy_perm f m).symm)
  haveI : IsAntisymm α (fun x y => f x < f y) :=
    ⟨fun a b h1 h2 => absurd (lt_trans h1 h2) (lt_irrefl _)⟩
  have hnd1 : ((sortBy f l).map f).Nodup :=
    (((sortBy_perm f l).map f).nodup_iff).mpr hnd
  have hnd2 : ((sortBy f m).map f).Nodup :=
    (((sortBy_perm f m).map f).nodup_iff).mpr ((hp.map f).nodup_iff.mp hnd)
  exact List.eq_of_perm_of_sorted hperm
    (sorted_strict_of_nodup_keys f _ (sortBy_sorted f l) hnd1)
    (sorted_strict_of_nodup_keys f _ (sortBy_sorted f m) hnd2)

/-! ## auth.py: constants and byte-level primitives -/

def hexVal (c : Char) : Nat :=
  if 48 ≤ c.toNat ∧ c.toNat ≤ 57 then c.toNat - 48
  else if 97 ≤ c.toNat ∧ c.toNat ≤ 102 then c.toNat - 87
  else if 65 ≤ c.toNat ∧ c.toNat ≤ 70 then c.toNat - 55
  else 0

def unhexChars : List Char → List Nat
  | a :: b :: rest => (16 * hexVal a + hexVal b) :: unhexChars rest
  | _ => []

/-- Model of `binascii.unhexlify` on the valid even-length hex constants the
source applies it to (it is never applied to anything else). -/
def unhexlify (s : String) : List Nat := unhexChars s.data

def KEY_LEN : Nat := 32
def IV_LEN : Nat := 16
def BLOCK_SIZE : Nat := 16
def BOREALIS_CODE : String :=
  "1c1d383d0562361a241b6b7a253d715965585b71053e171d26742c460d2211022b100000"
def ORION_CODE : String :=
  "6c767276555072795230334a6e754733332b6a304c6b4370644744716269646359773d3d"
/-- The 8-byte constant the source calls PREFIX (`b"53616c7465645f5f"`,
decoding to the OpenSSL magic `Salted__`). -/
def SALTED_MAGIC : String := "53616c7465645f5f"

/-- `auth.shuffle`: XOR each byte of `x` with the byte of `y` at the same
index taken cyclically (`v ^ y[i % len(y)]`); the result has the length of
`x`. (Python would raise ZeroDivisionError for empty `y`; no call site does
that, and the model returns `x` unchanged there via the `getD 0` default.) -/
def shuffle (x y : List Nat) : List Nat :=
  x.enum.map (fun iv => iv.2 ^^^ y.getD (iv.1 % y.length) 0)

/-- UTF-8 encoding of one scalar value, as Python's `str.encode("utf-8")`. -/
def charUtf8 (c : Char) : List Nat :=
  let n := c.toNat
  if n < 128 then [n]
  else if n < 2048 then [192 + n / 64, 128 + n % 64]
  else if n < 65536 then [224 + n / 4096, 128 + (n / 64) % 64, 128 + n % 64]
  else [240 + n / 262144, 128 + (n / 4096) % 64, 128 + (n / 64) % 64, 128 + n % 64]

def utf8Bytes (s : String) : List Nat := s.data.flatMap charUtf8

/-- UTF-16-LE encoding of one scalar value, as Python's
`str.encode("utf-16-le")` (surrogate pair for astral code points). -/
def charUtf16le (c : Char) : List Nat :=
  let n := c.toNat
  if n < 65536 then [n % 256, n / 256]
  else
    let v := n - 65536
    let hi := 55296 + v / 1024
    let lo := 56320 + v % 1024
    [hi % 256, hi / 256, lo % 256, lo / 256]

def utf16leBytes (s : String) : List Nat := s.data.flatMap charUtf16le

/-- `itertools.batched(_, 2)` followed by `int.from_bytes(b, "little")` on
each batch, as in `passcode_from_token`: each 2-byte little-endian pair
becomes `lo + 256 * hi` (a trailing odd byte stays as is). -/
def fold16 : List Nat → List Nat
  | a :: b :: rest => (a + 256 * b) :: fold16 rest
  | [a] => [a]
  | [] => []

/-- External library primitives used by auth.py, kept abstract: the model
never looks inside MD5/SHA-256/AES or the JWT base64+JSON payload decoding,
only at how the repository composes them. -/
structure CryptoPrims where
  md5 : List Nat → List Nat
  sha256hex : List Nat → String
  jwtPayload : String → Option (List (String × String))
  aesEncBlock : List Nat → List Nat → List Nat
  aesDecBlock : List Nat → List Nat → List Nat

inductive AuthError
  | tokenDecodeError
  | tokenClaimMissing
  | decryptionError
deriving DecidableEq

/-- `auth.passcode_from_token`: decode the JWT payload without signature
verification, read the `"token"` claim, hash it (hex digest), fold the
UTF-16-LE encoding of the digest, and XOR-combine with the de-obfuscated
star constant. `jwt.decode` raising (malformed token) is `none` from
`jwtPayload`; a missing claim is Python's `KeyError`. -/
def passcode_from_token (p : CryptoPrims) (auth_token : String) :
    Except AuthError (List Nat) :=
  match p.jwtPayload auth_token with
  | none => .error .tokenDecodeError
  | some jwt_content =>
    match dictGet jwt_content "token" with
    | none => .error .tokenClaimMissing
    | some secret =>
      let digest := p.sha256hex (utf8Bytes secret)
      let borealis_code := unhexlify BOREALIS_CODE
      let orion_code := unhexlify ORION_CODE
      let star_code := shuffle borealis_code orion_code
      let digest_code := fold16 (utf16leBytes digest)
      .ok (shuffle star_code digest_code)

/-- `auth.bytes_to_key`'s accumulation loop (`while len(dtot) < iv_len+key_len`).
Fuel-bounded; the fuel never runs out when `md5` returns 16-byte digests,
which is the only situation the theorems consider. -/
def bytesToKeyLoop (md5f : List Nat → List Nat) (ps : List Nat) (needed : Nat) :
    Nat → List Nat → List Nat → List Nat
  | 0, dtot, _ => dtot
  | fuel + 1, dtot, dlast =>
    if needed ≤ dtot.length then dtot
    else
      let d := md5f (dlast ++ ps)
      bytesToKeyLoop md5f ps needed fuel (dtot ++ d) d

def bytes_to_key (md5f : List Nat → List Nat) (password salt : List Nat)
    (key_len iv_len : Nat) : List Nat × List Nat :=
  let dtot0 := md5f (password ++ salt)
  let dtot := bytesToKeyLoop md5f (password ++ salt) (iv_len + key_len)
    (iv_len + key_len) dtot0 dtot0
  (dtot.take key_len, (dtot.drop key_len).take iv_len)

/-- `Crypto.Util.Padding.pad` (PKCS#7). -/
def pad (msg : List Nat) (bs : Nat) : List Nat :=
  let n := bs - msg.length % bs
  msg ++ List.replicate n n

/-- `Crypto.Util.Padding.unpad` (PKCS#7); `none` is the ValueError path. -/
def unpad (data : List Nat) (bs : Nat) : Option (List Nat) :=
  if data.length = 0 then none
  else if data.length % bs ≠ 0 then none
  else
    let n := data.getLast?.getD 0
    if n < 1 ∨ min bs data.length < n then none
    else if data.drop (data.length - n) ≠ List.replicate n n then none
    else some (data.take (data.length - n))

/-! ## base64 (`base64.b64encode` / `b64decode` on well-formed input) -/

def B64_ALPHABET : List Nat :=
  (List.range 26).map (fun i => 65 + i) ++ (List.range 26).map (fun i => 97 + i) ++
    (List.range 10).map (fun i => 48 + i) ++ [43, 47]

def sextet (n : Nat) : Nat := B64_ALPHABET.getD n 0

def unsextet (c : Nat) : Nat := B64_ALPHABET.indexOf c

def b64encode : List Nat → List Nat
  | [] => []
  | [a] => [sextet (a / 4), sextet (a % 4 * 16), 61, 61]
  | [a, b] => [sextet (a / 4), sextet (a % 4 * 16 + b / 16), sextet (b % 16 * 4), 61]
  | a :: b :: c :: rest =>
    sextet (a / 4) :: sextet (a % 4 * 16 + b / 16) :: sextet (b % 16 * 4 + c / 64) ::
      sextet (c % 64) :: b64encode rest

def b64decode : List Nat → List Nat
  | s1 :: s2 :: s3 :: s4 :: rest =>
    if s4 = 61 then
      if s3 = 61 then [unsextet s1 * 4 + unsextet s2 / 16]
      else [unsextet s1 * 4 + unsextet s2 / 16, unsextet s2 % 16 * 16 + unsextet s3 / 4]
    else
      (unsextet s1 * 4 + unsextet s2 / 16) :: (unsextet s2 % 16 * 16 + unsextet s3 / 4) ::
        (unsextet s3 % 4 * 64 + unsextet s4) :: b64decode rest
  | _ => []

theorem unsextet_sextet (n : Nat) (h : n < 64) : unsextet (sextet n) = n := by
  revert h
  revert n
  decide

theorem sextet_ne_61 (n : Nat) (h : n < 64) : sextet n ≠ 61 := by
  revert h
  revert n
  decide

theorem b64byte1 (a b : Nat) (ha : a < 256) (hb : b < 256) :
    a / 4 * 4 + (a % 4 * 16 + b / 16) / 16 = a := by
  have h1 : a % 4 * 16 + b / 16 = 16 * (a % 4) + b / 16 := by omega
  rw [h1, Nat.mul_add_div (by norm_num)]
  have h2 : b / 16 / 16 = 0 := by
    rw [Nat.div_div_eq_div_mul]
    exact Nat.div_eq_of_lt (by omega)
  rw [h2]
  omega

theorem b64byte2 (a b c : Nat) (ha : a < 256) (hb : b < 256) (hc : c < 256) :
    (a % 4 * 16 + b / 16) % 16 * 16 + (b % 16 * 4 + c / 64) / 4 = b := by
  have h1 : a % 4 * 16 + b / 16 = 16 * (a % 4) + b / 16 := by omega
  have h2 : b % 16 * 4 + c / 64 = 4 * (b % 16) + c / 64 := by omega
  rw [h1, h2, Nat.mul_add_mod, Nat.mul_add_div (by norm_num)]
  have h3 : b / 16 % 16 = b / 16 := Nat.mod_eq_of_lt (by omega)
  have h4 : c / 64 / 4 = 0 := by
    rw [Nat.div_div_eq_div_mul]
    exact Nat.div_eq_of_lt (by omega)
  rw [h3, h4]
  omega

theorem b64byte3 (b c : Nat) (hb : b < 256) (hc : c < 256) :
    (b % 16 * 4 + c / 64) % 4 * 64 + c % 64 = c := by
  have h2 : b % 16 * 4 + c / 64 = 4 * (b % 16) + c / 64 := by omega
  rw [h2, Nat.mul_add_mod]
  have h3 : c / 64 % 4 = c / 64 := Nat.mod_eq_of_lt (by omega)
  rw [h3]
  omega

theorem b64byte1s (a : Nat) (ha : a < 256) : a / 4 * 4 + a % 4 * 16 / 16 = a := by
  rw [Nat.mul_div_cancel _ (by norm_num : (0:Nat) < 16)]
  omega

theorem b64byte2s (a b : Nat) (ha : a < 256) (hb : b < 256) :
    (a % 4 * 16 + b / 16) % 16 * 16 + b % 16 * 4 / 4 = b := by
  have h1 : a % 4 * 16 + b / 16 = 16 * (a % 4) + b / 16 := by omega
  rw [h1, Nat.mul_add_mod, Nat.mul_div_cancel _ (by norm_num : (0:Nat) < 4)]
  have h3 : b / 16 % 16 = b / 16 := Nat.mod_eq_of_lt (by omega)
  rw [h3]
  omega

theorem b64_roundtrip : ∀ (l : List Nat), (∀ v ∈ l, v < 256) → b64decode (b64encode l) = l
  | [], _ => rfl
  | [a], h => by
    have ha : a < 256 := h a (by simp)
    have h1 : a / 4 < 64 := by omega
    have h2 : a % 4 * 16 < 64 := by omega
    simp only [b64encode, b64decode, if_pos rfl, unsextet_sextet _ h1, unsextet_sextet _ h2]
    rw [b64byte1s a ha]
    simp
  | [a, b], h => by
    have ha : a < 256 := h a (by simp)
    have hb : b < 256 := h b (by simp)
    have h1 : a / 4 < 64 := by omega
    have h2 : a % 4 * 16 + b / 16 < 64 := by omega
    have h3 : b % 16 * 4 < 64 := by omega
    simp only [b64encode, b64decode, if_pos rfl, if_neg (sextet_ne_61 _ h3),
      unsextet_sextet _ h1, unsextet_sextet _ h2, unsextet_sextet _ h3]
    rw [b64byte1 a b ha hb, b64byte2s a b ha hb]
    simp
  | a :: b :: c :: d :: rest, h => by
    have ha : a < 256 := h a (by simp)
    have hb : b < 256 := h b (by simp)
    have hc : c < 256 := h c (by simp)
    have h1 : a / 4 < 64 := by omega
    have h2 : a % 4 * 16 + b / 16 < 64 := by omega
    have h3 : b % 16 * 4 + c / 64 < 64 := by omega
    have h4 : c % 64 < 64 := by omega
    have ih := b64_roundtrip (d :: rest) (fun v hv => h v (by simp at hv ⊢; tauto))
    simp only [b64encode, b64decode, if_neg (sextet_ne_61 _ h4),
      unsextet_sextet _ h1, unsextet_sextet _ h2, unsextet_sextet _ h3, unsextet_sextet _ h4]
    rw [b64byte1 a b ha hb, b64byte2 a b c ha hb hc, b64byte3 b c hb hc, ih]
  | [a, b, c], h => by
    have ha : a < 256 := h a (by simp)
    have hb : b < 256 := h b (by simp)
    have hc : c < 256 := h c (by simp)
    have h1 : a / 4 < 64 := by omega
    have h2 : a % 4 * 16 + b / 16 < 64 := by omega
    have h3 : b % 16 * 4 + c / 64 < 64 := by omega
    have h4 : c % 64 < 64 := by omega
    simp only [b64encode, b64decode, if_neg (sextet_ne_61 _ h4),
      unsextet_sextet _ h1, unsextet_sextet _ h2, unsextet_sextet _ h3, unsextet_sextet _ h4]
    rw [b64byte1 a b ha hb, b64byte2 a b c ha hb hc, b64byte3 b c hb hc]
  termination_by l => l.length

/-! ## AES-CBC (chaining is modelled; the block cipher itself is a parameter) -/

def xorBytes (a b : List Nat) : List Nat := List.zipWith (fun x y => x ^^^ y) a b

def cbcEncryptAux (encB : List Nat → List Nat) : Nat → List Nat → List Nat → List Nat
  | 0, _, _ => []
  | fuel + 1, prev, data =>
    if data = [] then []
    else
      let blk := encB (xorBytes prev (data.take 16))
      blk ++ cbcEncryptAux encB fuel blk (data.drop 16)

/-- CBC chaining over 16-byte blocks. The fuel argument (`data.length`) only
bounds the recursion; every step consumes at least one element, so it never
runs out. -/
def cbcEncrypt (encB : List Nat → List Nat) (prev data : List Nat) : List Nat :=
  cbcEncryptAux encB data.length prev data

def cbcDecryptAux (decB : List Nat → List Nat) : Nat → List Nat → List Nat → List Nat
  | 0, _, _ => []
  | fuel + 1, prev, data =>
    if data = [] then []
    else xorBytes prev (decB (data.take 16)) ++ cbcDecryptAux decB fuel (data.take 16) (data.drop 16)

def cbcDecrypt (decB : List Nat → List Nat) (prev data : List Nat) : List Nat :=
  cbcDecryptAux decB data.length prev data

/-- `auth.encrypt`. The 8 random bytes `get_random_bytes(8)` are passed in as
the explicit `salt` argument; everything else follows the source line by
line: derive the passcode from the token, pad the UTF-8 plaintext, CBC
encrypt, frame as `PREFIX ++ salt ++ ciphertext`, base64 encode. -/
def encrypt (p : CryptoPrims) (auth_token : String) (salt : List Nat) (message : String) :
    Except AuthError (List Nat) :=
  match passcode_from_token p auth_token with
  | .error e => .error e
  | .ok passcode =>
    let msg := utf8Bytes message
    let pre := unhexlify SALTED_MAGIC
    let ki := bytes_to_key p.md5 passcode salt KEY_LEN IV_LEN
    .ok (b64encode (pre ++ salt ++ cbcEncrypt (p.aesEncBlock ki.1) ki.2 (pad msg BLOCK_SIZE)))

/-- `auth.decrypt`: base64 decode, take bytes 8..16 as the salt and 16.. as
the ciphertext, re-derive key material, CBC decrypt, unpad. -/
def decrypt (p : CryptoPrims) (auth_token : String) (message : List Nat) :
    Except AuthError (List Nat) :=
  match passcode_from_token p auth_token with
  | .error e => .error e
  | .ok passcode =>
    let encrypted := b64decode message
    let salt := (encrypted.drop 8).take 8
    let cypher := encrypted.drop 16
    let ki := bytes_to_key p.md5 passcode salt KEY_LEN IV_LEN
    match unpad (cbcDecrypt (p.aesDecBlock ki.1) ki.2 cypher) BLOCK_SIZE with
    | none => .error .decryptionError
    | some r => .ok r

/-! ## auth.py: supporting lemmas -/

theorem bytesToKeyLoop_stop (md5f : List Nat → List Nat) (ps : List Nat) (needed fuel : Nat)
    (dtot dlast : List Nat) (h : needed ≤ dtot.length) :
    bytesToKeyLoop md5f ps needed (fuel + 1) dtot dlast = dtot := by
  simp [bytesToKeyLoop, h]

theorem bytesToKeyLoop_step (md5f : List Nat → List Nat) (ps : List Nat) (needed fuel : Nat)
    (dtot dlast : List Nat) (h : ¬ needed ≤ dtot.length) :
    bytesToKeyLoop md5f ps needed (fuel + 1) dtot dlast =
      bytesToKeyLoop md5f ps needed fuel (dtot ++ md5f (dlast ++ ps)) (md5f (dlast ++ ps)) := by
  simp [bytesToKeyLoop, h]

/-- With a 16-byte digest primitive, `bytes_to_key` with the source's
constants (32-byte key, 16-byte IV) runs its loop exactly twice: the key is
`D0 ++ D1` and the IV is `D2` of the classic EVP_BytesToKey chain. -/
theorem bytes_to_key_closed (md5f : List Nat → List Nat) (password salt : List Nat)
    (hlen : ∀ x, (md5f x).length = 16) :
    bytes_to_key md5f password salt KEY_LEN IV_LEN =
      (md5f (password ++ salt) ++ md5f (md5f (password ++ salt) ++ (password ++ salt)),
        md5f (md5f (md5f (password ++ salt) ++ (password ++ salt)) ++ (password ++ salt))) := by
  have l0 := hlen (password ++ salt)
  have l1 := hlen (md5f (password ++ salt) ++ (password ++ salt))
  have l2 := hlen (md5f (md5f (password ++ salt) ++ (password ++ salt)) ++ (password ++ salt))
  have c1 : ¬ (48 : Nat) ≤ (md5f (password ++ salt)).length := by omega
  have c2 : ¬ (48 : Nat) ≤ (md5f (password ++ salt) ++
      md5f (md5f (password ++ salt) ++ (password ++ salt))).length := by
    rw [List.length_append, l0, l1]; omega
  have c3 : (48 : Nat) ≤ ((md5f (password ++ salt) ++
      md5f (md5f (password ++ salt) ++ (password ++ salt))) ++
      md5f (md5f (md5f (password ++ salt) ++ (password ++ salt)) ++ (password ++ salt))).length := by
    rw [List.length_append, List.length_append, l0, l1, l2]
  have klen : (md5f (password ++ salt) ++
      md5f (md5f (password ++ salt) ++ (password ++ salt))).length = 32 := by
    rw [List.length_append, l0, l1]
  simp only [bytes_to_key]
  rw [show IV_LEN + KEY_LEN = 48 from rfl]
  rw [show (48 : Nat) = 47 + 1 from rfl, bytesToKeyLoop_step _ _ _ _ _ _ c1]
  rw [show (47 : Nat) = 46 + 1 from rfl, bytesToKeyLoop_step _ _ _ _ _ _ c2]
  rw [show (46 : Nat) = 45 + 1 from rfl, bytesToKeyLoop_stop _ _ _ _ _ _ c3]
  rw [show KEY_LEN = 32 from rfl, show IV_LEN = 16 from rfl]
  rw [List.take_left' klen, List.drop_left' klen]
  rw [List.take_of_length_le (le_of_eq l2)]

theorem xorBytes_length (a b : List Nat) : (xorBytes a b).length = min a.length b.length := by
  simp [xorBytes]

theorem xorBytes_cancel (a : List Nat) : ∀ (b : List Nat), a.length = b.length →
    xorBytes a (xorBytes a b) = b := by
  induction a with
  | nil =>
    intro b hb
    have hb' : b = [] := List.eq_nil_of_length_eq_zero hb.symm
    simp [hb', xorBytes]
  | cons x xs ih =>
    intro b hb
    cases b with
    | nil => simp at hb
    | cons y ys =>
      show (x ^^^ (x ^^^ y)) :: xorBytes xs (xorBytes xs ys) = y :: ys
      rw [Nat.xor_cancel_left, ih ys (by simpa using hb)]

theorem xorBytes_lt_256 (a : List Nat) : ∀ (b : List Nat), (∀ v ∈ a, v < 256) →
    (∀ v ∈ b, v < 256) → ∀ v ∈ xorBytes a b, v < 256 := by
  induction a with
  | nil => intro b _ _ v hv; simp [xorBytes] at hv
  | cons x xs ih =>
    intro b ha hb v hv
    cases b with
    | nil => simp [xorBytes] at hv
    | cons y ys =>
      rcases List.mem_cons.mp hv with rfl | hv'
      · have h1 : x < 256 := ha x (by simp)
        have h2 : y < 256 := hb y (by simp)
        exact Nat.xor_lt_two_pow (n := 8) h1 h2
      · exact ih ys (fun u hu => ha u (by simp [hu])) (fun u hu => hb u (by simp [hu])) v hv'

theorem cbcEncryptAux_nil (encB : List Nat → List Nat) (f : Nat) (prev : List Nat) :
    cbcEncryptAux encB f prev [] = [] := by
  cases f with
  | zero => rfl
  | succ f' => simp [cbcEncryptAux]

theorem cbcDecryptAux_nil (decB : List Nat → List Nat) (f : Nat) (prev : List Nat) :
    cbcDecryptAux decB f prev [] = [] := by
  cases f with
  | zero => rfl
  | succ f' => simp [cbcDecryptAux]

theorem cbcAux_roundtrip (encB decB : List Nat → List Nat)
    (hdec : ∀ b, b.length = 16 → decB (encB b) = b)
    (hlen : ∀ b, b.length = 16 → (encB b).length = 16) :
    ∀ (n f1 f2 : Nat) (data prev : List Nat), data.length = 16 * n → prev.length = 16 →
      16 * n ≤ f1 → 16 * n ≤ f2 →
      cbcDecryptAux decB f2 prev (cbcEncryptAux encB f1 prev data) = data := by
  intro n
  induction n with
  | zero =>
    intro f1 f2 data prev hd _ _ _
    have hdata : data = [] := List.eq_nil_of_length_eq_zero (by omega)
    subst hdata
    rw [cbcEncryptAux_nil, cbcDecryptAux_nil]
  | succ m ih =>
    intro f1 f2 data prev hd hp hf1 hf2
    cases f1 with
    | zero => omega
    | succ f1' =>
    cases f2 with
    | zero => omega
    | succ f2' =>
    have hdne : data ≠ [] := by
      intro h
      subst h
      simp at hd
    have htake : (data.take 16).length = 16 := by
      rw [List.length_take]
      omega
    have hxlen : (xorBytes prev (data.take 16)).length = 16 := by
      rw [xorBytes_length, hp, htake]
      omega
    have hblk : (encB (xorBytes prev (data.take 16))).length = 16 := hlen _ hxlen
    have hbne : encB (xorBytes prev (data.take 16)) ≠ [] := by
      intro h
      rw [h] at hblk
      simp at hblk
    have hne2 : encB (xorBytes prev (data.take 16)) ++
        cbcEncryptAux encB f1' (encB (xorBytes prev (data.take 16))) (data.drop 16) ≠ [] := by
      intro h
      exact hbne (List.append_eq_nil.mp h).1
    show cbcDecryptAux decB (f2' + 1) prev (cbcEncryptAux encB (f1' + 1) prev data) = data
    simp only [cbcEncryptAux, hdne, if_false]
    simp only [cbcDecryptAux, hne2, if_false]
    rw [List.take_left' hblk, List.drop_left' hblk]
    rw [hdec _ hxlen]
    rw [xorBytes_cancel prev (data.take 16) (by rw [hp, htake])]
    rw [ih f1' f2' (data.drop 16) (encB (xorBytes prev (data.take 16)))
      (by rw [List.length_drop]; omega) hblk (by omega) (by omega)]
    exact List.take_append_drop 16 data

theorem cbcEncryptAux_length (encB : List Nat → List Nat)
    (hlen : ∀ b, b.length = 16 → (encB b).length = 16) :
    ∀ (n f : Nat) (data prev : List Nat), data.length = 16 * n → 16 * n ≤ f →
      prev.length = 16 → (cbcEncryptAux encB f prev data).length = 16 * n := by
  intro n
  induction n with
  | zero =>
    intro f data prev hd _ _
    have hdata : data = [] := List.eq_nil_of_length_eq_zero (by omega)
    subst hdata
    rw [cbcEncryptAux_nil]
    omega
  | succ m ih =>
    intro f data prev hd hf hp
    cases f with
    | zero => omega
    | succ f' =>
    have hdne : data ≠ [] := by
      intro h
      subst h
      simp at hd
    have htake : (data.take 16).length = 16 := by
      rw [List.length_take]
      omega
    have hxlen : (xorBytes prev (data.take 16)).length = 16 := by
      rw [xorBytes_length, hp, htake]
      omega
    have hblk : (encB (xorBytes prev (data.take 16))).length = 16 := hlen _ hxlen
    show (cbcEncryptAux encB (f' + 1) prev data).length = 16 * (m + 1)
    simp only [cbcEncryptAux, hdne, if_false]
    rw [List.length_append, hblk,
      ih f' (data.drop 16) _ (by rw [List.length_drop]; omega) (by omega) hblk]
    omega

theorem cbc_roundtrip (encB decB : List Nat → List Nat)
    (hdec : ∀ b, b.length = 16 → decB (encB b) = b)
    (hlen : ∀ b, b.length = 16 → (encB b).length = 16) :
    ∀ (n : Nat) (data prev : List Nat), data.length = 16 * n → prev.length = 16 →
      cbcDecrypt decB prev (cbcEncrypt encB prev data) = data := by
  intro n data prev hd hp
  rw [cbcEncrypt, cbcDecrypt]
  rw [cbcEncryptAux_length encB hlen n data.length data prev hd (by omega) hp]
  exact cbcAux_roundtrip encB decB hdec hlen n data.length (16 * n) data prev hd hp
    (by omega) (by omega)

theorem cbcEncryptAux_bytes (encB : List Nat → List Nat)
    (hbytes : ∀ b, (∀ v ∈ b, v < 256) → ∀ v ∈ encB b, v < 256) :
    ∀ (f : Nat) (data prev : List Nat), (∀ v ∈ prev, v < 256) → (∀ v ∈ data, v < 256) →
      ∀ v ∈ cbcEncryptAux encB f prev data, v < 256 := by
  intro f
  induction f with
  | zero => intro data prev _ _ v hv; simp [cbcEncryptAux] at hv
  | succ f' ih =>
    intro data prev hp hd v hv
    by_cases h : data = []
    · simp [cbcEncryptAux, h] at hv
    · simp only [cbcEncryptAux, h, if_false] at hv
      have hblk : ∀ v ∈ encB (xorBytes prev (data.take 16)), v < 256 :=
        hbytes _ (xorBytes_lt_256 _ _ hp (fun u hu => hd u (List.take_subset 16 data hu)))
      rcases List.mem_append.mp hv with hv' | hv'
      · exact hblk v hv'
      · exact ih (data.drop 16) _ hblk (fun u hu => hd u (List.drop_subset 16 data hu)) v hv'

theorem cbcEncrypt_bytes (encB : List Nat → List Nat)
    (hbytes : ∀ b, (∀ v ∈ b, v < 256) → ∀ v ∈ encB b, v < 256) :
    ∀ (data prev : List Nat), (∀ v ∈ prev, v < 256) → (∀ v ∈ data, v < 256) →
      ∀ v ∈ cbcEncrypt encB prev data, v < 256 := by
  intro data prev hp hd
  exact cbcEncryptAux_bytes encB hbytes data.length data prev hp hd

theorem getLast_replicate_pos (n x : Nat) (h : 1 ≤ n) :
    (List.replicate n x).getLast? = some x := by
  rw [List.getLast?_replicate]
  simp
  omega

theorem unpad_pad (msg : List Nat) : unpad (pad msg BLOCK_SIZE) BLOCK_SIZE = some msg := by
  rw [show BLOCK_SIZE = 16 from rfl]
  have hmod : msg.length % 16 < 16 := Nat.mod_lt _ (by norm_num)
  show unpad (msg ++ List.replicate (16 - msg.length % 16) (16 - msg.length % 16)) 16 = some msg
  have hn1 : 1 ≤ 16 - msg.length % 16 := by omega
  have hL : (msg ++ List.replicate (16 - msg.length % 16) (16 - msg.length % 16)).length
      = msg.length + (16 - msg.length % 16) := by
    rw [List.length_append, List.length_replicate]
  have hlast : (msg ++ List.replicate (16 - msg.length % 16)
      (16 - msg.length % 16)).getLast? = some (16 - msg.length % 16) := by
    rw [List.getLast?_append, getLast_replicate_pos _ _ hn1, Option.or_some]
  rw [unpad, hL, hlast]
  simp only [Option.getD_some]
  rw [if_neg (by omega)]
  rw [if_neg (by omega)]
  rw [if_neg (by omega)]
  rw [show msg.length + (16 - msg.length % 16) - (16 - msg.length % 16) = msg.length from by omega]
  rw [List.drop_left' rfl]
  rw [if_neg (by simp)]
  rw [List.take_left]

theorem pad_length (msg : List Nat) :
    (pad msg BLOCK_SIZE).length = 16 * (msg.length / 16 + 1) := by
  simp only [pad, BLOCK_SIZE]
  rw [List.length_append, List.length_replicate]
  omega

theorem pad_bytes (msg : List Nat) (h : ∀ v ∈ msg, v < 256) :
    ∀ v ∈ pad msg BLOCK_SIZE, v < 256 := by
  intro v hv
  simp only [pad, BLOCK_SIZE] at hv
  rcases List.mem_append.mp hv with hv' | hv'
  · exact h v hv'
  · have := List.eq_of_mem_replicate hv'
    have hmod : msg.length % 16 < 16 := Nat.mod_lt _ (by norm_num)
    omega

theorem char_toNat_lt (c : Char) : c.toNat < 1114112 := by
  rcases c.valid with h | h
  · exact lt_trans h (by norm_num)
  · exact h.2

theorem charUtf8_lt_256 (c : Char) : ∀ v ∈ charUtf8 c, v < 256 := by
  have hc := char_toNat_lt c
  intro v hv
  by_cases h1 : c.toNat < 128
  · simp [charUtf8, h1] at hv
    omega
  · by_cases h2 : c.toNat < 2048
    · simp [charUtf8, h1, h2] at hv
      rcases hv with hv | hv <;> omega
    · by_cases h3 : c.toNat < 65536
      · simp [charUtf8, h1, h2, h3] at hv
        rcases hv with hv | hv | hv <;> omega
      · simp [charUtf8, h1, h2, h3] at hv
        rcases hv with hv | hv | hv | hv <;> omega

theorem utf8Bytes_lt_256 (s : String) : ∀ v ∈ utf8Bytes s, v < 256 := by
  intro v hv
  rw [utf8Bytes, List.mem_flatMap] at hv
  obtain ⟨c, _, hc⟩ := hv
  exact charUtf8_lt_256 c v hc

theorem magic_bytes : (unhexlify SALTED_MAGIC).length = 8 ∧
    ∀ v ∈ unhexlify SALTED_MAGIC, v < 256 := by decide

/-- Claim C4: under the same credentials, decryption inverts encryption.
Hypotheses state only facts about the external primitives: MD5 digests are
16 bytes of byte values, and the AES block cipher is a 16-byte-block
permutation with its inverse. The salt is the 8 random bytes drawn inside
the source's `encrypt`. -/
theorem c4_encrypt_decrypt_roundtrip (p : CryptoPrims) (auth_token : String)
    (salt : List Nat) (message : String) (pc env : List Nat)
    (hok : passcode_from_token p auth_token = Except.ok pc)
    (hmd5len : ∀ x, (p.md5 x).length = 16)
    (hmd5bytes : ∀ x, ∀ v ∈ p.md5 x, v < 256)
    (hdec : ∀ k b, b.length = 16 → p.aesDecBlock k (p.aesEncBlock k b) = b)
    (hency : ∀ k b, b.length = 16 → (p.aesEncBlock k b).length = 16)
    (hencb : ∀ k b, (∀ v ∈ b, v < 256) → ∀ v ∈ p.aesEncBlock k b, v < 256)
    (hsalt : salt.length = 8) (hsaltb : ∀ v ∈ salt, v < 256)
    (henv : encrypt p auth_token salt message = Except.ok env) :
    decrypt p auth_token env = Except.ok (utf8Bytes message) := by
  simp only [encrypt, hok] at henv
  have henv' : env = b64encode (unhexlify SALTED_MAGIC ++ salt ++
      cbcEncrypt (p.aesEncBlock (bytes_to_key p.md5 pc salt KEY_LEN IV_LEN).1)
        (bytes_to_key p.md5 pc salt KEY_LEN IV_LEN).2
        (pad (utf8Bytes message) BLOCK_SIZE)) := by
    rw [Except.ok.injEq] at henv
    exact henv.symm
  have hivlen : (bytes_to_key p.md5 pc salt KEY_LEN IV_LEN).2.length = 16 := by
    rw [bytes_to_key_closed p.md5 pc salt hmd5len]
    exact hmd5len _
  have hivb : ∀ v ∈ (bytes_to_key p.md5 pc salt KEY_LEN IV_LEN).2, v < 256 := by
    rw [bytes_to_key_closed p.md5 pc salt hmd5len]
    exact hmd5bytes _
  have hcipherb : ∀ v ∈ cbcEncrypt (p.aesEncBlock (bytes_to_key p.md5 pc salt KEY_LEN IV_LEN).1)
      (bytes_to_key p.md5 pc salt KEY_LEN IV_LEN).2 (pad (utf8Bytes message) BLOCK_SIZE), v < 256 :=
    cbcEncrypt_bytes _ (fun b hb => hencb _ b hb) _ _ hivb
      (pad_bytes _ (utf8Bytes_lt_256 message))
  have hallb : ∀ v ∈ unhexlify SALTED_MAGIC ++ salt ++
      cbcEncrypt (p.aesEncBlock (bytes_to_key p.md5 pc salt KEY_LEN IV_LEN).1)
        (bytes_to_key p.md5 pc salt KEY_LEN IV_LEN).2
        (pad (utf8Bytes message) BLOCK_SIZE), v < 256 := by
    intro v hv
    rcases List.mem_append.mp hv with hv' | hv'
    · rcases List.mem_append.mp hv' with hv'' | hv''
      · exact magic_bytes.2 v hv''
      · exact hsaltb v hv''
    · exact hcipherb v hv'
  subst henv'
  simp only [decrypt, hok]
  rw [b64_roundtrip _ hallb]
  rw [List.append_assoc, List.drop_left' magic_bytes.1, List.take_left' hsalt]
  rw [← List.append_assoc, List.drop_left' (by rw [List.length_append, magic_bytes.1, hsalt])]
  rw [cbc_roundtrip (p.aesEncBlock (bytes_to_key p.md5 pc salt KEY_LEN IV_LEN).1)
    (p.aesDecBlock (bytes_to_key p.md5 pc salt KEY_LEN IV_LEN).1)
    (fun b hb => hdec _ b hb) (fun b hb => hency _ b hb)
    ((utf8Bytes message).length / 16 + 1) _ _ (pad_length (utf8Bytes message)) hivlen]
  rw [unpad_pad]

/-! ## C8/C9: passphrase derivation -/

/-- Spec-side definition for C9, following the spec's words literally:
"position-wise exclusive-or (shorter operand cycled)" — the shorter operand
wraps around, so the result is as long as the longer operand. -/
def specXorShorterCycled (x y : List Nat) : List Nat :=
  (List.range (max x.length y.length)).map
    (fun i => x.getD (i % x.length) 0 ^^^ y.getD (i % y.length) 0)

/-- What `auth.shuffle` actually computes, spelled out position by position:
the FIRST operand fixes the length, and the second operand is indexed
cyclically (so a longer second operand is truncated, not cycled over). -/
def specXorSecondCycled (x y : List Nat) : List Nat :=
  (List.range x.length).map (fun i => x.getD i 0 ^^^ y.getD (i % y.length) 0)

def star_code : List Nat := shuffle (unhexlify BOREALIS_CODE) (unhexlify ORION_CODE)

def spec_star_code : List Nat :=
  specXorShorterCycled (unhexlify BOREALIS_CODE) (unhexlify ORION_CODE)

theorem shuffle_eq_specXorSecondCycled (x y : List Nat) :
    shuffle x y = specXorSecondCycled x y := by
  apply List.ext_getElem
  · simp [shuffle, specXorSecondCycled]
  · intro n h1 h2
    simp only [shuffle, specXorSecondCycled, List.getElem_map]
    rw [List.getElem_enum, List.getElem_range]
    simp only [shuffle, List.length_map] at h1
    have hn : n < x.length := by
      have := List.enum_length (l := x)
      omega
    rw [List.getD_eq_getElem x 0 hn]

/-- Concrete instantiation of the external primitives, used by witnesses and
counterexamples: a fixed 64-hex-character digest, an identity block cipher,
and a JWT decoder that accepts exactly the token `"good"`. -/
def primsDemo : CryptoPrims where
  md5 := fun _ => List.replicate 16 0
  sha256hex := fun _ => "0123456789abcdef0123456789abcdef0123456789abcdef0123456789abcdef"
  jwtPayload := fun t => if t = "good" then some [("token", "secret")] else none
  aesEncBlock := fun _ b => b
  aesDecBlock := fun _ b => b

/-- Claim C8: derivation fails on malformed tokens and, whenever it returns a
passphrase, the token's payload was decodable and carried the `"token"`
claim — there is no default/fallback passphrase path in the code. -/
theorem c8_no_fallback_passcode (p : CryptoPrims) (auth_token : String) :
    (p.jwtPayload auth_token = none →
      passcode_from_token p auth_token = Except.error AuthError.tokenDecodeError) ∧
    (∀ pc, passcode_from_token p auth_token = Except.ok pc →
      ∃ jwt_content secret, p.jwtPayload auth_token = some jwt_content ∧
        dictGet jwt_content "token" = some secret) := by
  constructor
  · intro h
    simp [passcode_from_token, h]
  · intro pc hpc
    rcases hj : p.jwtPayload auth_token with _ | jwt_content
    · simp [passcode_from_token, hj] at hpc
    · rcases hc : dictGet jwt_content "token" with _ | secret
      · simp [passcode_from_token, hj, hc] at hpc
      · exact ⟨jwt_content, secret, rfl, hc⟩

theorem c8_witness :
    passcode_from_token primsDemo "bad" = Except.error AuthError.tokenDecodeError ∧
    ∃ jwt_content secret, primsDemo.jwtPayload "good" = some jwt_content ∧
      dictGet jwt_content "token" = some secret := by
  constructor
  · exact (c8_no_fallback_passcode primsDemo "bad").1 rfl
  · have hok : (passcode_from_token primsDemo "good").isOk = true := by decide
    rcases he : passcode_from_token primsDemo "good" with e | pc
    · rw [he] at hok
      simp [Except.isOk, Except.toBool] at hok
    · exact (c8_no_fallback_passcode primsDemo "good").2 pc he

deriving instance DecidableEq for Except

/-- Claim C9's counterexample: the passphrase the code derives is NOT the
spec's "shorter operand cycled" XOR of the star constant with the folded
digest — the star constant (36 bytes) is the shorter operand against the
64-byte folded digest, and the code truncates to 36 bytes instead of
cycling the star constant to 64. -/
theorem c9_counterexample :
    passcode_from_token primsDemo "good" ≠
      Except.ok (specXorShorterCycled spec_star_code
        (fold16 (utf16leBytes (primsDemo.sha256hex (utf8Bytes "secret"))))) := by
  decide

/-- Claim C9 as amended: the passphrase is the position-wise XOR of the star
constant (itself the XOR of the two de-obfuscated embedded constants) with
the folded digest, where the result has the star constant's length and the
second operand is indexed modulo its length. -/
theorem c9_amended_passphrase_formula (p : CryptoPrims) (auth_token : String)
    (jwt_content : List (String × String)) (secret : String)
    (hjwt : p.jwtPayload auth_token = some jwt_content)
    (hclaim : dictGet jwt_content "token" = some secret) :
    passcode_from_token p auth_token =
      Except.ok (specXorSecondCycled spec_star_code
        (fold16 (utf16leBytes (p.sha256hex (utf8Bytes secret))))) := by
  simp only [passcode_from_token, hjwt, hclaim]
  rw [shuffle_eq_specXorSecondCycled]
  rw [show shuffle (unhexlify BOREALIS_CODE) (unhexlify ORION_CODE) = spec_star_code by decide]

theorem c9_amended_witness :
    passcode_from_token primsDemo "good" =
      Except.ok (specXorSecondCycled spec_star_code
        (fold16 (utf16leBytes (primsDemo.sha256hex (utf8Bytes "secret"))))) :=
  c9_amended_passphrase_formula primsDemo "good" [("token", "secret")] "secret" rfl rfl

def saltDemo : List Nat := [1, 2, 3, 4, 5, 6, 7, 8]
def pcDemo : List Nat := (passcode_from_token primsDemo "good").toOption.getD []
def envDemo : List Nat := (encrypt primsDemo "good" saltDemo "hi").toOption.getD []

theorem c4_witness : decrypt primsDemo "good" envDemo = Except.ok (utf8Bytes "hi") :=
  c4_encrypt_decrypt_roundtrip primsDemo "good" saltDemo "hi" pcDemo envDemo
    (by decide) (fun _ => rfl)
    (fun _ v hv => by
      have := List.eq_of_mem_replicate hv
      omega)
    (fun _ _ _ => rfl) (fun _ _ h => h) (fun _ _ hb => hb)
    rfl (by decide) (by decide)

/-! ## provider.py: wire messages and the `load_page` reassembly loop -/

/-- One `pageChunk-<n>` wire payload with the literal wire field names of the
protocol (spec section 6). -/
structure WireChunk where
  numberOfChunks : Nat
  chunkNumber : Nat
  mergedChapterNumber : Option Nat
  numberOfMergedChapters : Option Nat
  content : String
deriving DecidableEq

/-- `PageLoadCommandChunk` (provider.py lines 135-140), field names as in the
source. -/
structure PageLoadCommandChunk where
  total_chunk_num : Nat
  chunk_num : Nat
  total_merged_chapter_num : Option Nat
  merged_chapter_num : Option Nat
  content : String
deriving DecidableEq

/-- The pydantic validation aliases of `PageLoadCommandChunk`: the field
named `total_merged_chapter_num` is read from the wire field
`mergedChapterNumber`, and the field named `merged_chapter_num` from
`numberOfMergedChapters` — crosswise to the `numberOfChunks` →
`total_chunk_num` / `chunkNumber` → `chunk_num` naming pattern used for the
other two fields of the same model. -/
def parseWireChunk (w : WireChunk) : PageLoadCommandChunk :=
  { total_chunk_num := w.numberOfChunks
    chunk_num := w.chunkNumber
    total_merged_chapter_num := w.mergedChapterNumber
    merged_chapter_num := w.numberOfMergedChapters
    content := w.content }

/-- The event-name check `re.match(r"^pageChunk-\d+$", event)` of
`LoadPageCommandResponse.validate_event`. -/
def isPageChunkEvent (s : String) : Bool :=
  decide (s.data.take 10 = "pageChunk-".data) &&
    (decide (s.data.drop 10 ≠ []) && (s.data.drop 10).all Char.isDigit)

/-- A message received on the socket during `load_page`, after JSON parsing:
either a server `error` event or a page-chunk event. -/
inductive WireMsg
  | errorEvent (code : Nat) (message : String)
  | pageEvent (event : String) (data : WireChunk)
deriving DecidableEq

/-- The two accumulators of `load_page`'s receive loop. -/
structure PageState where
  page_content : List (Option Nat × List (Nat × String))
  merged_chapter_chunk_sizes : List (Option Nat × Nat)
deriving DecidableEq

/-- One iteration's mutations (provider.py lines 251-253): `setdefault` the
group's inner dict, store the fragment under its chunk number, and record
the group's declared chunk total. -/
def stepChunk (st : PageState) (c : PageLoadCommandChunk) : PageState :=
  let merged_chapter_content := (dictGet st.page_content c.merged_chapter_num).getD []
  { page_content := dictInsert st.page_content c.merged_chapter_num
      (dictInsert merged_chapter_content c.chunk_num c.content)
    merged_chapter_chunk_sizes :=
      dictInsert st.merged_chapter_chunk_sizes c.merged_chapter_num c.total_chunk_num }

/-- The loop's break condition (lines 248-263): the declared group total
(defaulting to 1 when the field is absent) must not exceed the number of
groups seen, and no seen group may have fewer chunks than its declared
total. The `getD 0` for the sizes lookup can never be hit: a key is present
in `page_content` exactly when it is present in the sizes dict. -/
def pageComplete (st : PageState) (c : PageLoadCommandChunk) : Bool :=
  let total_merged_chapter_num := c.total_merged_chapter_num.getD 1
  total_merged_chapter_num ≤ st.page_content.length &&
    st.page_content.all (fun gi =>
      (dictGet st.merged_chapter_chunk_sizes gi.1).getD 0 ≤ gi.2.length)

/-- Group keys sorted as `sorted(page_content.items())`: all keys in one run
are uniformly `some _` (or, for a unit without merged chapters, the single
key `none`), so the cross-constructor order here is never exercised —
mixing `None` with ints would be a `TypeError` in the source. -/
def orank : Option Nat → Nat
  | none => 0
  | some g => g + 1

/-- Lines 265-268: groups in ascending key order, fragments in ascending
chunk-number order within each group, all concatenated. -/
def renderPage (st : PageState) : String :=
  String.join ((sortBy (fun gi => orank gi.1) st.page_content).map
    (fun gi => String.join ((sortBy (fun p => p.1) gi.2).map Prod.snd)))

inductive PageResult
  | hang
  | serverError (code : Nat) (message : String)
  | badEvent (event : String)
  | done (content : String)
deriving DecidableEq

/-- `load_page`'s receive loop over a fixed inbound message list: running
out of messages is the unbounded-await case (`hang`); an `error` event
raises `DataProviderError`; an event name failing the regex raises a
validation error (`badEvent`). -/
def loadPageLoop : PageState → List WireMsg → PageResult
  | _, [] => .hang
  | _, .errorEvent code message :: _ => .serverError code message
  | st, .pageEvent event data :: rest =>
    if isPageChunkEvent event then
      let chunk_data := parseWireChunk data
      let st' := stepChunk st chunk_data
      if pageComplete st' chunk_data then .done (renderPage st')
      else loadPageLoop st' rest
    else .badEvent event

/-- `DataProvider.load_page` (lines 221-269), abstracted over the inbound
message stream; the outbound send is not modelled (nothing in it feeds back
into the reassembly). -/
def load_page (msgs : List WireMsg) : PageResult := loadPageLoop ⟨[], []⟩ msgs

/-! ## provider.py: structural metadata and the `fetch_contents` loop -/

/-- `BookChapterMetadata`: `book_map` is `dict[int, list[int]] | None`. -/
structure BookChapterMetadata where
  book_type : String
  num_chapters : Nat
  book_map : Option (List (Nat × List Nat))
deriving DecidableEq

/-- The `chapter_lengths` computed field (lines 72-78). -/
def chapter_lengths (m : BookChapterMetadata) : List (Nat × Nat) :=
  match m.book_map with
  | none => (List.range m.num_chapters).map (fun i => (i + 1, 1))
  | some bm => bm.map (fun kv => (kv.1, kv.2.length + 1))

/-- `sorted(book_chapter_meta.chapter_lengths.items())` (line 292). -/
def sorted_chapter_meta (m : BookChapterMetadata) : List (Nat × Nat) :=
  sortBy Prod.fst (chapter_lengths m)

/-- `num_parts = sum(map(itemgetter(1), sorted_chapter_meta))` (line 293). -/
def num_parts (m : BookChapterMetadata) : Nat :=
  ((sorted_chapter_meta m).map Prod.snd).sum

/-- The iteration space of the nested loops on lines 294-295, in order:
`(chapter, part_no)` for each chapter and `part_no in range(part_count)`. -/
def partIters (m : BookChapterMetadata) : List (Nat × Nat) :=
  (sorted_chapter_meta m).flatMap
    (fun kv => (List.range kv.2).map (fun part_no => (kv.1, part_no)))

/-- The `part_ind = chapter + part_no` cache keys (line 296), in yield
order. -/
def partIndices (m : BookChapterMetadata) : List Nat :=
  (partIters m).map (fun cp => cp.1 + cp.2)

/-- Observable outcome of one `fetch_contents` run: the yielded triples, the
load-page requests issued on the socket, the cache written back by the
`finally` block, and whether the run ended in an error. -/
structure FetchResult (ε : Type) where
  yields : List (Nat × String × Nat)
  calls : List (Nat × Nat)
  flushed : List (Nat × String)
  errored : Option ε

/-- The unit loop of `fetch_contents` (lines 294-303): consult the cache by
`part_ind`, otherwise call `load_page` (modelled by `loader`, which may
raise) and store the result; the `finally` block always persists the
current cache, which `flushed` records. -/
def fetchLoop {ε : Type} (loader : Nat → Nat → Except ε String) (nparts : Nat) :
    List (Nat × Nat) → List (Nat × String) → FetchResult ε
  | [], cache => ⟨[], [], cache, none⟩
  | (chapter, part_no) :: rest, cache =>
    let part_ind := chapter + part_no
    match dictGet cache part_ind with
    | some v =>
      let r := fetchLoop loader nparts rest cache
      ⟨(part_ind, v, nparts) :: r.yields, r.calls, r.flushed, r.errored⟩
    | none =>
      match loader chapter part_no with
      | .error e => ⟨[], [(chapter, part_no)], cache, some e⟩
      | .ok part_content =>
        let r := fetchLoop loader nparts rest (dictInsert cache part_ind part_content)
        ⟨(part_ind, part_content, nparts) :: r.yields, (chapter, part_no) :: r.calls,
          r.flushed, r.errored⟩

/-- `DataProvider.fetch_contents` (lines 271-307) for a given parsed
structural metadata and loaded cache snapshot. -/
def fetch_contents {ε : Type} (loader : Nat → Nat → Except ε String)
    (m : BookChapterMetadata) (content_cache : List (Nat × String)) : FetchResult ε :=
  fetchLoop loader (num_parts m) (partIters m) content_cache

/-! ## C2/C3: content unit indices -/

/-- The structural metadata of the claims' example: 2 top-level units, unit 1
with 2 sub-units, unit 2 with 1 sub-unit. -/
def cexMeta : BookChapterMetadata := ⟨"epub", 2, some [(1, [7]), (2, [])]⟩

def loaderAll : Nat → Nat → Except Unit String :=
  fun chapter part_no => Except.ok ("pg" ++ toString chapter ++ "." ++ toString part_no)

/-- Claim C2's counterexample: for the example metadata the yielded
ContentUnitIndex sequence is not `[1, 2, 3]`. -/
theorem c2_counterexample :
    (fetch_contents loaderAll cexMeta []).yields.map (fun y => y.1) ≠ [1, 2, 3] := by
  decide

/-- Claim C2 as amended: the index is the unit's ordinal plus the sub-unit
offset, so the example yields `[1, 2, 2]` — unit 2's single sub-unit reuses
index 2 (colliding with unit 1 offset 1) and is served from the cache entry
written by unit 1's second sub-unit. -/
theorem c2_amended_indices {ε : Type} (loader : Nat → Nat → Except ε String)
    (hok : ∀ c p, (loader c p).isOk = true) :
    (fetch_contents loader cexMeta []).yields.map (fun y => y.1) = [1, 2, 2] := by
  have h10 : ∃ s, loader 1 0 = Except.ok s := by
    have := hok 1 0
    rcases h : loader 1 0 with e | s
    · rw [h] at this
      simp [Except.isOk, Except.toBool] at this
    · exact ⟨s, rfl⟩
  obtain ⟨s1, hs1⟩ := h10
  have h11 : ∃ s, loader 1 1 = Except.ok s := by
    have := hok 1 1
    rcases h : loader 1 1 with e | s
    · rw [h] at this
      simp [Except.isOk, Except.toBool] at this
    · exact ⟨s, rfl⟩
  obtain ⟨s2, hs2⟩ := h11
  have hit : partIters cexMeta = [(1, 0), (1, 1), (2, 0)] := by decide
  rw [fetch_contents, hit]
  simp [fetchLoop, dictGet, dictInsert, hs1, hs2]

theorem c2_amended_witness :
    (fetch_contents loaderAll cexMeta []).yields.map (fun y => y.1) = [1, 2, 2] :=
  c2_amended_indices loaderAll (fun _ _ => rfl)

/-- Claim C3's counterexample: the ContentUnitIndex values of the example
metadata are not pairwise distinct (`[1, 2, 2]`), so two (unit, sub-unit)
pairs share a cache key. -/
theorem c3_counterexample :
    ¬ List.Pairwise (fun a b : Nat => a ≠ b) (partIndices cexMeta) := by
  decide

theorem chapter_lengths_pos (m : BookChapterMetadata) :
    ∀ kv ∈ chapter_lengths m, 1 ≤ kv.2 := by
  intro kv hkv
  rcases hm : m.book_map with _ | bm
  · rw [chapter_lengths, hm] at hkv
    obtain ⟨i, _, hi⟩ := List.mem_map.mp hkv
    rw [← hi]
  · rw [chapter_lengths, hm] at hkv
    obtain ⟨ab, _, hab⟩ := List.mem_map.mp hkv
    rw [← hab]
    exact Nat.succ_le_succ (Nat.zero_le _)

theorem head_block (c n : Nat) (h : 1 ≤ n) :
    ((List.range n).map (fun p => c + p)).head? = some c := by
  cases n with
  | zero => omega
  | succ m =>
    rw [List.range_succ_eq_map]
    simp

theorem getLast_block (c n : Nat) (h : 1 ≤ n) :
    ((List.range n).map (fun p => c + p)).getLast? = some (c + (n - 1)) := by
  cases n with
  | zero => omega
  | succ m =>
    rw [List.range_succ]
    simp [List.getLast?_append]

theorem chain_block (c n : Nat) :
    List.Chain' (fun a b : Nat => a < b) ((List.range n).map (fun p => c + p)) := by
  rw [List.chain'_map]
  exact ((List.pairwise_lt_range n).imp (fun h => by omega)).chain'

theorem chain_lt_flatMap : ∀ (l : List (Nat × Nat)),
    (∀ kv ∈ l, 1 ≤ kv.2) → List.Chain' (fun a b => a.1 + a.2 ≤ b.1) l →
    List.Chain' (fun a b : Nat => a < b)
      (l.flatMap (fun kv => (List.range kv.2).map (fun p => kv.1 + p)))
  | [], _, _ => by simp
  | kv :: l', hpos, hchain => by
    rw [List.flatMap_cons, List.chain'_append]
    refine ⟨chain_block kv.1 kv.2,
      chain_lt_flatMap l' (fun x hx => hpos x (by simp [hx])) hchain.tail, ?_⟩
    intro x hx y hy
    rw [getLast_block kv.1 kv.2 (hpos kv (by simp))] at hx
    simp at hx
    cases l' with
    | nil => simp at hy
    | cons kv₂ l'' =>
      rw [List.flatMap_cons, List.head?_append,
        head_block kv₂.1 kv₂.2 (hpos kv₂ (by simp)), Option.or_some] at hy
      simp at hy
      have hrel : kv.1 + kv.2 ≤ kv₂.1 := (List.chain'_cons.mp hchain).1
      have hk2 : 1 ≤ kv.2 := hpos kv (by simp)
      omega

/-- Claim C3 as amended: the indices are pairwise distinct (indeed strictly
increasing) provided each unit's ordinal plus its sub-unit count does not
exceed the next unit's ordinal in sorted order — the spacing the real
service's page numbering provides. Without that spacing the counterexample
above shows a collision. -/
theorem c3_amended_distinct (m : BookChapterMetadata)
    (hchain : List.Chain' (fun a b => a.1 + a.2 ≤ b.1) (sorted_chapter_meta m)) :
    List.Pairwise (fun a b : Nat => a ≠ b) (partIndices m) := by
  have hpos : ∀ kv ∈ sorted_chapter_meta m, 1 ≤ kv.2 := fun kv hkv =>
    chapter_lengths_pos m kv ((sortBy_perm Prod.fst (chapter_lengths m)).mem_iff.mp hkv)
  have hch : List.Chain' (fun a b : Nat => a < b) (partIndices m) := by
    rw [partIndices, partIters, List.map_flatMap]
    have he : (fun kv : Nat × Nat => List.map (fun cp : Nat × Nat => cp.1 + cp.2)
        (List.map (fun part_no => (kv.1, part_no)) (List.range kv.2))) =
        (fun kv : Nat × Nat => (List.range kv.2).map (fun p => kv.1 + p)) := by
      funext kv
      rw [List.map_map]
      rfl
    rw [he]
    exact chain_lt_flatMap (sorted_chapter_meta m) hpos hchain
  exact (List.chain'_iff_pairwise.mp hch).imp (fun h => by omega)

def spacedMeta : BookChapterMetadata := ⟨"epub", 2, some [(1, [7]), (3, [])]⟩

theorem c3_amended_witness :
    List.Pairwise (fun a b : Nat => a ≠ b) (partIndices spacedMeta) :=
  c3_amended_distinct spacedMeta (by
    have h : sorted_chapter_meta spacedMeta = [(1, 2), (3, 1)] := by decide
    rw [h]
    exact List.chain'_cons.mpr ⟨by decide, List.chain'_singleton _⟩)

/-! ## C6/C7/C10: cache behaviour of the fetch loop -/

theorem fetchLoop_preserves {ε : Type} (loader : Nat → Nat → Except ε String) (np : Nat) :
    ∀ (iters : List (Nat × Nat)) (cache : List (Nat × String)) (k : Nat) (v : String),
    dictGet cache k = some v → dictGet (fetchLoop loader np iters cache).flushed k = some v := by
  intro iters
  induction iters with
  | nil => intro cache k v h; exact h
  | cons cp rest ih =>
    intro cache k v h
    obtain ⟨c, p⟩ := cp
    rcases hc : dictGet cache (c + p) with _ | w
    · rcases hl : loader c p with e | s
      · simp only [fetchLoop, hc, hl]
        exact h
      · simp only [fetchLoop, hc, hl]
        apply ih
        by_cases hk : k = c + p
        · subst hk
          rw [h] at hc
          cases hc
        · rw [dictGet_insert_ne _ _ _ _ hk]
          exact h
    · simp only [fetchLoop, hc]
      exact ih cache k v h

theorem fetchLoop_cached {ε : Type} (loader : Nat → Nat → Except ε String) (np : Nat) :
    ∀ (iters : List (Nat × Nat)) (cache : List (Nat × String)) (i : Nat) (v : String),
    dictGet cache i = some v →
    (∀ cp ∈ (fetchLoop loader np iters cache).calls, cp.1 + cp.2 ≠ i) ∧
    (∀ y ∈ (fetchLoop loader np iters cache).yields, y.1 = i → y.2.1 = v) := by
  intro iters
  induction iters with
  | nil =>
    intro cache i v h
    exact ⟨by intro cp hcp; simp [fetchLoop] at hcp, by intro y hy; simp [fetchLoop] at hy⟩
  | cons cp rest ih =>
    intro cache i v h
    obtain ⟨c, p⟩ := cp
    rcases hc : dictGet cache (c + p) with _ | w
    · have hne : c + p ≠ i := by
        intro he
        rw [he, h] at hc
        cases hc
      rcases hl : loader c p with e | s
      · simp only [fetchLoop, hc, hl]
        refine ⟨?_, by intro y hy; simp at hy⟩
        intro cp' hcp'
        simp at hcp'
        subst hcp'
        exact hne
      · simp only [fetchLoop, hc, hl]
        have h' : dictGet (dictInsert cache (c + p) s) i = some v := by
          rw [dictGet_insert_ne _ _ _ _ (fun he => hne he.symm)]
          exact h
        obtain ⟨ihc, ihy⟩ := ih (dictInsert cache (c + p) s) i v h'
        constructor
        · intro cp' hcp'
          rcases List.mem_cons.mp hcp' with rfl | hcp''
          · exact hne
          · exact ihc cp' hcp''
        · intro y hy hyi
          rcases List.mem_cons.mp hy with rfl | hy'
          · exact absurd hyi hne
          · exact ihy y hy' hyi
    · obtain ⟨ihc, ihy⟩ := ih cache i v h
      simp only [fetchLoop, hc]
      constructor
      · exact ihc
      · intro y hy hyi
        rcases List.mem_cons.mp hy with rfl | hy'
        · have hyi' : c + p = i := hyi
          rw [hyi', h] at hc
          cases hc
          rfl
        · exact ihy y hy' hyi

theorem fetchLoop_flushed {ε : Type} (loader : Nat → Nat → Except ε String) (np : Nat) :
    ∀ (iters : List (Nat × Nat)) (cache : List (Nat × String)) (k : Nat) (v : String),
    dictGet (fetchLoop loader np iters cache).flushed k = some v ↔
      dictGet cache k = some v ∨ ∃ n, (k, v, n) ∈ (fetchLoop loader np iters cache).yields := by
  intro iters
  induction iters with
  | nil =>
    intro cache k v
    simp [fetchLoop]
  | cons cp rest ih =>
    intro cache k v
    obtain ⟨c, p⟩ := cp
    rcases hc : dictGet cache (c + p) with _ | w
    · rcases hl : loader c p with e | s
      · simp only [fetchLoop, hc, hl]
        simp
      · simp only [fetchLoop, hc, hl]
        rw [ih (dictInsert cache (c + p) s) k v]
        constructor
        · intro hor
          rcases hor with hcache | ⟨n, hn⟩
          · by_cases hk : k = c + p
            · subst hk
              rw [dictGet_insert_self] at hcache
              cases hcache
              exact Or.inr ⟨np, by simp⟩
            · rw [dictGet_insert_ne _ _ _ _ hk] at hcache
              exact Or.inl hcache
          · exact Or.inr ⟨n, by simp [hn]⟩
        · intro hor
          rcases hor with hcache | ⟨n, hn⟩
          · by_cases hk : k = c + p
            · subst hk
              rw [hcache] at hc
              cases hc
            · exact Or.inl (by rw [dictGet_insert_ne _ _ _ _ hk]; exact hcache)
          · rcases List.mem_cons.mp hn with he | hn'
            · simp at he
              obtain ⟨h1, h2, _⟩ := he
              subst h1
              subst h2
              exact Or.inl (dictGet_insert_self _ _ _)
            · exact Or.inr ⟨n, hn'⟩
    · simp only [fetchLoop, hc]
      rw [ih cache k v]
      constructor
      · intro hor
        rcases hor with hcache | ⟨n, hn⟩
        · exact Or.inl hcache
        · exact Or.inr ⟨n, by simp [hn]⟩
      · intro hor
        rcases hor with hcache | ⟨n, hn⟩
        · exact Or.inl hcache
        · rcases List.mem_cons.mp hn with he | hn'
          · simp at he
            obtain ⟨h1, h2, _⟩ := he
            subst h1
            subst h2
            exact Or.inl hc
          · exact Or.inr ⟨n, hn'⟩

/-- Claim C6: a unit index present in the loaded cache is served from the
cache — no load-page request whose `chapter + part_no` equals that index is
ever sent on the transport, and every yield at that index carries the cached
plaintext. -/
theorem c6_cache_short_circuit {ε : Type} (loader : Nat → Nat → Except ε String)
    (m : BookChapterMetadata) (cache : List (Nat × String)) (i : Nat) (v : String)
    (h : dictGet cache i = some v) :
    (∀ cp ∈ (fetch_contents loader m cache).calls, cp.1 + cp.2 ≠ i) ∧
    (∀ y ∈ (fetch_contents loader m cache).yields, y.1 = i → y.2.1 = v) :=
  fetchLoop_cached loader (num_parts m) (partIters m) cache i v h

def meta5 : BookChapterMetadata := ⟨"epub", 5, none⟩

def cache5 : List (Nat × String) := [(5, "cached")]

theorem c6_witness :
    (∀ cp ∈ (fetch_contents loaderAll meta5 cache5).calls, cp.1 + cp.2 ≠ 5) ∧
    (∀ y ∈ (fetch_contents loaderAll meta5 cache5).yields, y.1 = 5 → y.2.1 = "cached") :=
  c6_cache_short_circuit loaderAll meta5 cache5 5 "cached" rfl

/-- Claim C7: starting from an empty cache, whatever is on disk after the
teardown flush is exactly the entries of the units that completed before the
error — the flush runs on the error path and loses nothing, and the failed
unit contributes nothing. -/
theorem c7_flush_on_error {ε : Type} (loader : Nat → Nat → Except ε String)
    (m : BookChapterMetadata)
    (herr : (fetch_contents loader m []).errored.isSome = true) :
    ∀ (k : Nat) (v : String),
      dictGet (fetch_contents loader m []).flushed k = some v ↔
        ∃ n, (k, v, n) ∈ (fetch_contents loader m []).yields := by
  intro k v
  have h := fetchLoop_flushed loader (num_parts m) (partIters m) [] k v
  rw [fetch_contents]
  rw [h]
  simp [dictGet]

def loaderFail3 : Nat → Nat → Except Unit String :=
  fun chapter _ => if chapter ≤ 3 then Except.ok ("pg" ++ toString chapter) else Except.error ()

theorem c7_witness :
    dictGet (fetch_contents loaderFail3 meta5 []).flushed 2 = some "pg2" ↔
      ∃ n, (2, "pg2", n) ∈ (fetch_contents loaderFail3 meta5 []).yields :=
  c7_flush_on_error loaderFail3 meta5 (by decide) 2 "pg2"

/-- Claim C10: the flushed snapshot extends the loaded one — `fetch_contents`
never removes a cached entry and never overwrites an existing entry (the
store is guarded by `part_ind not in content_cache`), on every outcome. -/
theorem c10_cache_monotone {ε : Type} (loader : Nat → Nat → Except ε String)
    (m : BookChapterMetadata) (cache : List (Nat × String)) (k : Nat) (v : String)
    (h : dictGet cache k = some v) :
    dictGet (fetch_contents loader m cache).flushed k = some v :=
  fetchLoop_preserves loader (num_parts m) (partIters m) cache k v h

theorem c10_witness :
    dictGet (fetch_contents loaderFail3 meta5 cache5).flushed 5 = some "cached" :=
  c10_cache_monotone loaderFail3 meta5 cache5 5 "cached" rfl

/-! ## C1: the two-level completion check at the wire level -/

def c1FailingMsg : WireMsg :=
  WireMsg.pageEvent "pageChunk-0"
    { numberOfChunks := 1, chunkNumber := 0, mergedChapterNumber := some 1,
      numberOfMergedChapters := some 2, content := "a" }

/-- Claim C1, the code's behaviour at the failing input: a single chunk
declaring `numberOfMergedChapters = 2` (and `mergedChapterNumber = 1`,
`numberOfChunks = 1`, `chunkNumber = 0`) makes `load_page` report the unit
complete immediately, although per the claim a unit declaring two merged
groups must stay incomplete until two distinct groups have been observed.
The parse maps the wire field `numberOfMergedChapters` to the group KEY and
`mergedChapterNumber` to the declared group total (swapped validation
aliases), so the loop sees one group out of a declared total of one. -/
theorem c1_code_behavior_at_failing_input :
    load_page [c1FailingMsg] = PageResult.done "a" := by decide

/-! ## C5: reassembly is order-independent

A "complete set of unit-response chunk envelopes" (spec section 3,
ChunkEnvelope) for groups `gs` with per-group chunk counts `sizes` and
fragments `contents`: group `g` contributes chunks `0 .. sizes g - 1`, each
declaring its group's chunk total and the unit's group total `gs.length`.
The envelopes are laid out in the wire slots exactly as `load_page` consumes
them (the group key in the slot `parseWireChunk` reads into
`merged_chapter_num`, the group total in the slot it reads into
`total_merged_chapter_num`; claim C1 records the naming mismatch of those
two slots). -/

def canonPairs (gs : List Nat) (sizes : Nat → Nat) : List (Nat × Nat) :=
  gs.flatMap (fun g => (List.range (sizes g)).map (fun i => (g, i)))

def canonChunk (numGroups : Nat) (sizes : Nat → Nat) (contents : Nat → Nat → String)
    (g i : Nat) : WireChunk :=
  { numberOfChunks := sizes g, chunkNumber := i, mergedChapterNumber := some numGroups,
    numberOfMergedChapters := some g, content := contents g i }

def canonMsg (gs : List Nat) (sizes : Nat → Nat) (contents : Nat → Nat → String)
    (e : Nat → Nat → String) (g i : Nat) : WireMsg :=
  WireMsg.pageEvent (e g i) (canonChunk gs.length sizes contents g i)

def canonWire (gs : List Nat) (sizes : Nat → Nat) (contents : Nat → Nat → String)
    (e : Nat → Nat → String) : List WireMsg :=
  gs.flatMap (fun g => (List.range (sizes g)).map (fun i => canonMsg gs sizes contents e g i))

/-- The content the claim specifies: groups in ascending merged-group-index
order, fragments in ascending chunk-index order within each group. -/
def canonContent (gs : List Nat) (sizes : Nat → Nat) (contents : Nat → Nat → String) : String :=
  String.join ((sortBy (fun g => g) gs).map
    (fun g => String.join ((List.range (sizes g)).map (fun i => contents g i))))

def groupsOf (s : List (Nat × Nat)) : List Nat := (s.map Prod.fst).dedup

theorem mem_canonPairs (gs : List Nat) (sizes : Nat → Nat) (g i : Nat) :
    (g, i) ∈ canonPairs gs sizes ↔ g ∈ gs ∧ i < sizes g := by
  rw [canonPairs, List.mem_flatMap]
  constructor
  · rintro ⟨a, ha, hmem⟩
    obtain ⟨i', hi', he⟩ := List.mem_map.mp hmem
    rw [Prod.ext_iff] at he
    obtain ⟨h1, h2⟩ := he
    simp only at h1 h2
    subst h1
    subst h2
    exact ⟨ha, List.mem_range.mp hi'⟩
  · rintro ⟨hg, hi⟩
    exact ⟨g, hg, List.mem_map.mpr ⟨i, List.mem_range.mpr hi, rfl⟩⟩

theorem canonPairs_nodup (gs : List Nat) (sizes : Nat → Nat) (hnd : gs.Nodup) :
    (canonPairs gs sizes).Nodup := by
  induction gs with
  | nil => simp [canonPairs]
  | cons g gs' ih =>
    rw [List.nodup_cons] at hnd
    rw [canonPairs, List.flatMap_cons, List.nodup_append]
    refine ⟨List.Nodup.map (fun a b hab => by
        rw [Prod.ext_iff] at hab
        exact hab.2) (List.nodup_range _), ih hnd.2, ?_⟩
    intro q hq hq'
    obtain ⟨i, _, he⟩ := List.mem_map.mp hq
    obtain ⟨g', i'⟩ := q
    rw [Prod.ext_iff] at he
    simp only at he
    have hg' : g' ∈ gs' := ((mem_canonPairs gs' sizes g' i').mp hq').1
    rw [← he.1] at hg'
    exact hnd.1 hg'

theorem canonPairs_ne_nil (gs : List Nat) (sizes : Nat → Nat) (hne : gs ≠ [])
    (hsz : ∀ g ∈ gs, 1 ≤ sizes g) : canonPairs gs sizes ≠ [] := by
  cases gs with
  | nil => exact absurd rfl hne
  | cons g gs' =>
    intro h
    have : (g, 0) ∈ canonPairs (g :: gs') sizes :=
      (mem_canonPairs _ sizes g 0).mpr ⟨by simp, by have := hsz g (by simp); omega⟩
    rw [h] at this
    simp at this

theorem canonPairs_filter (gs : List Nat) (sizes : Nat → Nat) (hnd : gs.Nodup)
    (g : Nat) (hg : g ∈ gs) :
    (canonPairs gs sizes).filter (fun q => q.1 == g) =
      (List.range (sizes g)).map (fun i => (g, i)) := by
  induction gs with
  | nil => simp at hg
  | cons g' gs' ih =>
    rw [List.nodup_cons] at hnd
    rw [show canonPairs (g' :: gs') sizes =
      ((List.range (sizes g')).map (fun i => (g', i))) ++ canonPairs gs' sizes from rfl,
      List.filter_append]
    rcases List.mem_cons.mp hg with rfl | hg'
    · have h1 : List.filter (fun q => q.1 == g)
          ((List.range (sizes g)).map (fun i => (g, i))) =
          (List.range (sizes g)).map (fun i => (g, i)) := by
        rw [List.filter_eq_self]
        intro a ha
        obtain ⟨i, _, he⟩ := List.mem_map.mp ha
        rw [← he]
        simp
      have h2 : List.filter (fun q => q.1 == g) (canonPairs gs' sizes) = [] := by
        rw [List.filter_eq_nil_iff]
        intro q hq
        obtain ⟨g'', i''⟩ := q
        have := ((mem_canonPairs gs' sizes g'' i'').mp hq).1
        simp only [beq_iff_eq]
        intro he
        rw [he] at this
        exact hnd.1 this
      rw [h1, h2, List.append_nil]
    · have hne : g' ≠ g := by
        intro he
        rw [he] at hnd
        exact hnd.1 hg'
      have h1 : List.filter (fun q => q.1 == g)
          ((List.range (sizes g')).map (fun i => (g', i))) = [] := by
        rw [List.filter_eq_nil_iff]
        intro a ha
        obtain ⟨i, _, he⟩ := List.mem_map.mp ha
        rw [← he]
        simpa using hne
      rw [h1, List.nil_append]
      exact ih hnd.2 hg'

theorem canonWire_eq (gs : List Nat) (sizes : Nat → Nat) (contents : Nat → Nat → String)
    (e : Nat → Nat → String) :
    canonWire gs sizes contents e =
      (canonPairs gs sizes).map (fun q => canonMsg gs sizes contents e q.1 q.2) := by
  rw [canonWire, canonPairs, List.map_flatMap]
  congr 1
  funext g
  rw [List.map_map]
  rfl

theorem mem_groupsOf (s : List (Nat × Nat)) (g : Nat) :
    g ∈ groupsOf s ↔ g ∈ s.map Prod.fst := List.mem_dedup

theorem groupsOf_subset_gs (gs : List Nat) (sizes : Nat → Nat) (s : List (Nat × Nat))
    (hsub : ∀ q ∈ s, q ∈ canonPairs gs sizes) : ∀ g ∈ groupsOf s, g ∈ gs := by
  intro g hg
  rw [mem_groupsOf] at hg
  obtain ⟨q, hq, he⟩ := List.mem_map.mp hg
  obtain ⟨g', i'⟩ := q
  have := (mem_canonPairs gs sizes g' i').mp (hsub _ hq)
  simp only at he
  rw [← he]
  exact this.1

theorem groupsOf_perm_gs (gs : List Nat) (sizes : Nat → Nat) (hnd : gs.Nodup)
    (hsz : ∀ g ∈ gs, 1 ≤ sizes g) (s : List (Nat × Nat))
    (hperm : s.Perm (canonPairs gs sizes)) : (groupsOf s).Perm gs := by
  rw [groupsOf]
  rw [List.perm_ext_iff_of_nodup (List.nodup_dedup _) hnd]
  intro g
  rw [List.mem_dedup]
  constructor
  · intro hg
    obtain ⟨q, hq, he⟩ := List.mem_map.mp hg
    obtain ⟨g', i'⟩ := q
    have := (mem_canonPairs gs sizes g' i').mp (hperm.mem_iff.mp hq)
    simp only at he
    rw [← he]
    exact this.1
  · intro hg
    have h0 : (g, 0) ∈ canonPairs gs sizes :=
      (mem_canonPairs gs sizes g 0).mpr ⟨hg, by have := hsz g hg; omega⟩
    exact List.mem_map.mpr ⟨(g, 0), hperm.mem_iff.mpr h0, rfl⟩

theorem nodup_filtered_snd (s : List (Nat × Nat)) (g : Nat) (hsnd : s.Nodup) :
    ((s.filter (fun q => q.1 == g)).map Prod.snd).Nodup := by
  apply List.Nodup.map_on
  · intro x hx y hy he
    have hx' := List.mem_filter.mp hx
    have hy' := List.mem_filter.mp hy
    obtain ⟨x1, x2⟩ := x
    obtain ⟨y1, y2⟩ := y
    simp only [beq_iff_eq] at hx' hy'
    simp only at he
    rw [Prod.ext_iff]
    exact ⟨hx'.2.trans hy'.2.symm, he⟩
  · exact hsnd.filter _

theorem filter_length_full (gs : List Nat) (sizes : Nat → Nat) (hnd : gs.Nodup)
    (s : List (Nat × Nat)) (hperm : s.Perm (canonPairs gs sizes)) (g : Nat) (hg : g ∈ gs) :
    (s.filter (fun q => q.1 == g)).length = sizes g := by
  rw [(hperm.filter (fun q => q.1 == g)).length_eq, canonPairs_filter gs sizes hnd g hg,
    List.length_map, List.length_range]

theorem filter_length_partial (gs : List Nat) (sizes : Nat → Nat) (hnd : gs.Nodup)
    (s : List (Nat × Nat)) (hsnd : s.Nodup) (hsub : ∀ q ∈ s, q ∈ canonPairs gs sizes)
    (g₀ i₀ : Nat) (hmiss : (g₀, i₀) ∈ canonPairs gs sizes) (hnotin : (g₀, i₀) ∉ s) :
    (s.filter (fun q => q.1 == g₀)).length < sizes g₀ := by
  have hg₀ : g₀ ∈ gs := ((mem_canonPairs gs sizes g₀ i₀).mp hmiss).1
  have hcf : ((canonPairs gs sizes).filter (fun q => q.1 == g₀)).length = sizes g₀ := by
    rw [canonPairs_filter gs sizes hnd g₀ hg₀, List.length_map, List.length_range]
  have hmem₀ : (g₀, i₀) ∈ (canonPairs gs sizes).filter (fun q => q.1 == g₀) :=
    List.mem_filter.mpr ⟨hmiss, by simp⟩
  have hsubp : (s.filter (fun q => q.1 == g₀)).Subperm
      (((canonPairs gs sizes).filter (fun q => q.1 == g₀)).erase (g₀, i₀)) := by
    apply List.subperm_of_subset (hsnd.filter _)
    intro q hq
    have hq' := List.mem_filter.mp hq
    have hqc : q ∈ (canonPairs gs sizes).filter (fun q => q.1 == g₀) :=
      List.mem_filter.mpr ⟨hsub q hq'.1, hq'.2⟩
    have hqne : q ≠ (g₀, i₀) := by
      intro he
      rw [he] at hq'
      exact hnotin hq'.1
    exact (List.mem_erase_of_ne hqne).mpr hqc
  have hlen := hsubp.length_le
  rw [List.length_erase_of_mem hmem₀, hcf] at hlen
  have hpos : 1 ≤ sizes g₀ := by
    have := ((mem_canonPairs gs sizes g₀ i₀).mp hmiss).2
    omega
  omega

theorem canonMsg_injective (gs : List Nat) (sizes : Nat → Nat)
    (contents : Nat → Nat → String) (e : Nat → Nat → String) :
    Function.Injective (fun q : Nat × Nat => canonMsg gs sizes contents e q.1 q.2) := by
  intro q1 q2 he
  obtain ⟨g1, i1⟩ := q1
  obtain ⟨g2, i2⟩ := q2
  simp only [canonMsg, canonChunk, WireMsg.pageEvent.injEq, WireChunk.mk.injEq,
    Option.some.injEq] at he
  rw [Prod.ext_iff]
  exact ⟨he.2.2.2.2.1, he.2.2.1⟩

theorem filter_erase_insert {α : Type} [DecidableEq α] (a : α) :
    ∀ (l : List α) (s : List α), l.Nodup → a ∈ l → a ∉ s →
      (l.filter (fun x => decide (x ∉ s))).erase a =
        l.filter (fun x => decide (x ∉ a :: s)) := by
  intro l
  induction l with
  | nil => intro s _ ha _; simp at ha
  | cons b l' ih =>
    intro s hnd ha has
    rw [List.nodup_cons] at hnd
    by_cases hba : b = a
    · subst hba
      rw [show List.filter (fun x => decide (x ∉ s)) (b :: l') =
          b :: List.filter (fun x => decide (x ∉ s)) l' from by simp [List.filter_cons, has],
        List.erase_cons_head]
      rw [show List.filter (fun x => decide (x ∉ b :: s)) (b :: l') =
          List.filter (fun x => decide (x ∉ b :: s)) l' from by simp [List.filter_cons]]
      apply List.filter_congr
      intro x hx
      have hxb : x ≠ b := by
        intro he
        rw [he] at hx
        exact hnd.1 hx
      simp [hxb]
    · have ha' : a ∈ l' := by
        rcases List.mem_cons.mp ha with he | h
        · exact absurd he.symm hba
        · exact h
      by_cases hbs : b ∈ s
      · rw [show List.filter (fun x => decide (x ∉ s)) (b :: l') =
            List.filter (fun x => decide (x ∉ s)) l' from by simp [List.filter_cons, hbs],
          show List.filter (fun x => decide (x ∉ a :: s)) (b :: l') =
            List.filter (fun x => decide (x ∉ a :: s)) l' from by
              simp [List.filter_cons, hbs]]
        exact ih s hnd.2 ha' has
      · rw [show List.filter (fun x => decide (x ∉ s)) (b :: l') =
            b :: List.filter (fun x => decide (x ∉ s)) l' from by simp [List.filter_cons, hbs],
          List.erase_cons_tail (by simpa using hba),
          show List.filter (fun x => decide (x ∉ a :: s)) (b :: l') =
            b :: List.filter (fun x => decide (x ∉ a :: s)) l' from by
              simp [List.filter_cons, hbs, hba]]
        rw [ih s hnd.2 ha' has]

/-- Loop invariant for `load_page` fed with a permutation of a canonical
complete set: after the (distinct) pairs in `s` have been processed, the
accumulated state is exactly the restriction of the canonical set to `s`. -/
structure StOK (gs : List Nat) (sizes : Nat → Nat) (contents : Nat → Nat → String)
    (s : List (Nat × Nat)) (st : PageState) : Prop where
  keys_pc : (keysOf st.page_content).Perm ((groupsOf s).map some)
  get_none : dictGet st.page_content none = none
  get_not_mem : ∀ g : Nat, g ∉ s.map Prod.fst → dictGet st.page_content (some g) = none
  get_mem : ∀ g : Nat, g ∈ s.map Prod.fst → ∃ inner,
    dictGet st.page_content (some g) = some inner ∧
    (keysOf inner).Perm ((s.filter (fun q => q.1 == g)).map Prod.snd) ∧
    ∀ i c, dictGet inner i = some c ↔ (g, i) ∈ s ∧ c = contents g i
  get_sizes : ∀ g : Nat, g ∈ s.map Prod.fst →
    dictGet st.merged_chapter_chunk_sizes (some g) = some (sizes g)

theorem StOK_init (gs : List Nat) (sizes : Nat → Nat) (contents : Nat → Nat → String) :
    StOK gs sizes contents [] ⟨[], []⟩ :=
  { keys_pc := by simp [keysOf, groupsOf]
    get_none := rfl
    get_not_mem := fun _ _ => rfl
    get_mem := fun g hg => by simp at hg
    get_sizes := fun g hg => by simp at hg }

theorem StOK_step (gs : List Nat) (sizes : Nat → Nat) (contents : Nat → Nat → String)
    (s : List (Nat × Nat)) (st : PageState) (g i : Nat)
    (hok : StOK gs sizes contents s st) (hnotin : (g, i) ∉ s) :
    StOK gs sizes contents ((g, i) :: s)
      (stepChunk st (parseWireChunk (canonChunk gs.length sizes contents g i))) := by
  have hred : stepChunk st (parseWireChunk (canonChunk gs.length sizes contents g i)) =
      { page_content := dictInsert st.page_content (some g)
          (dictInsert ((dictGet st.page_content (some g)).getD []) i (contents g i))
        merged_chapter_chunk_sizes :=
          dictInsert st.merged_chapter_chunk_sizes (some g) (sizes g) } := rfl
  rw [hred]
  by_cases hg : g ∈ s.map Prod.fst
  · obtain ⟨inner, hgetI, hkeysI, hlookI⟩ := hok.get_mem g hg
    have hsg : some g ∈ keysOf st.page_content :=
      hok.keys_pc.mem_iff.mpr (List.mem_map.mpr ⟨g, (mem_groupsOf s g).mpr hg, rfl⟩)
    have hinner0 : (dictGet st.page_content (some g)).getD [] = inner := by
      rw [hgetI]
      rfl
    have hinotin : i ∉ keysOf inner := by
      intro hi
      obtain ⟨c, hc⟩ := dictGet_isSome_of_mem_keys inner i hi
      exact hnotin ((hlookI i c).mp hc).1
    refine ⟨?_, ?_, ?_, ?_, ?_⟩
    · show (keysOf (dictInsert st.page_content (some g)
        (dictInsert ((dictGet st.page_content (some g)).getD []) i (contents g i)))).Perm _
      rw [keysOf_insert_of_mem _ _ _ hsg]
      rw [show groupsOf ((g, i) :: s) = groupsOf s from List.dedup_cons_of_mem hg]
      exact hok.keys_pc
    · show dictGet (dictInsert st.page_content (some g) _) none = none
      rw [dictGet_insert_ne _ _ _ _ (by simp)]
      exact hok.get_none
    · intro g' hg'
      simp only [List.map_cons, List.mem_cons] at hg'
      push_neg at hg'
      show dictGet (dictInsert st.page_content (some g) _) (some g') = none
      rw [dictGet_insert_ne _ _ _ _ (by simpa using hg'.1)]
      exact hok.get_not_mem g' hg'.2
    · intro g' hg'
      by_cases hgg : g' = g
      · subst hgg
        refine ⟨dictInsert inner i (contents g' i), ?_, ?_, ?_⟩
        · show dictGet (dictInsert st.page_content (some g') _) (some g') = _
          rw [hinner0, dictGet_insert_self]
        · rw [keysOf_insert_of_not_mem _ _ _ hinotin]
          rw [List.filter_cons_of_pos (by simp)]
          exact (List.perm_append_singleton i (keysOf inner)).trans (hkeysI.cons i)
        · intro i' c
          by_cases hii : i' = i
          · subst hii
            rw [dictGet_insert_self]
            constructor
            · intro hc
              rw [Option.some.injEq] at hc
              exact ⟨by simp, hc.symm⟩
            · intro ⟨_, hc⟩
              rw [hc]
          · rw [dictGet_insert_ne _ _ _ _ hii]
            rw [hlookI i' c]
            constructor
            · intro ⟨h1, h2⟩
              exact ⟨by simp [h1], h2⟩
            · intro ⟨h1, h2⟩
              rcases List.mem_cons.mp h1 with he | h1'
              · rw [Prod.ext_iff] at he
                exact absurd he.2 hii
              · exact ⟨h1', h2⟩
      · have hg'' : g' ∈ s.map Prod.fst := by
          simp only [List.map_cons, List.mem_cons] at hg'
          rcases hg' with he | h
          · exact absurd he hgg
          · exact h
        obtain ⟨inner', hget', hkeys', hlook'⟩ := hok.get_mem g' hg''
        refine ⟨inner', ?_, ?_, ?_⟩
        · show dictGet (dictInsert st.page_content (some g) _) (some g') = _
          rw [dictGet_insert_ne _ _ _ _ (by simpa using hgg)]
          exact hget'
        · rw [List.filter_cons_of_neg (by
            simp only [beq_iff_eq]
            intro h
            exact hgg h.symm)]
          exact hkeys'
        · intro i' c
          rw [hlook' i' c]
          constructor
          · intro ⟨h1, h2⟩
            exact ⟨by simp [h1], h2⟩
          · intro ⟨h1, h2⟩
            rcases List.mem_cons.mp h1 with he | h1'
            · rw [Prod.ext_iff] at he
              exact absurd he.1 hgg
            · exact ⟨h1', h2⟩
    · intro g' hg'
      by_cases hgg : g' = g
      · subst hgg
        show dictGet (dictInsert st.merged_chapter_chunk_sizes (some g') (sizes g')) _ = _
        rw [dictGet_insert_self]
      · have hg'' : g' ∈ s.map Prod.fst := by
          simp only [List.map_cons, List.mem_cons] at hg'
          rcases hg' with he | h
          · exact absurd he hgg
          · exact h
        show dictGet (dictInsert st.merged_chapter_chunk_sizes (some g) (sizes g)) _ = _
        rw [dictGet_insert_ne _ _ _ _ (by simpa using hgg)]
        exact hok.get_sizes g' hg''
  · have hnone : dictGet st.page_content (some g) = none := hok.get_not_mem g hg
    have hsg : some g ∉ keysOf st.page_content := by
      intro hs
      have := hok.keys_pc.mem_iff.mp hs
      obtain ⟨g', hg', he⟩ := List.mem_map.mp this
      rw [Option.some.injEq] at he
      rw [he] at hg'
      exact hg ((mem_groupsOf s g).mp hg')
    have hinner0 : (dictGet st.page_content (some g)).getD [] = [] := by
      rw [hnone]
      rfl
    have hfilter : s.filter (fun q => q.1 == g) = [] := by
      rw [List.filter_eq_nil_iff]
      intro q hq
      simp only [beq_iff_eq]
      intro he
      exact hg (List.mem_map.mpr ⟨q, hq, he⟩)
    refine ⟨?_, ?_, ?_, ?_, ?_⟩
    · show (keysOf (dictInsert st.page_content (some g) _)).Perm _
      rw [keysOf_insert_of_not_mem _ _ _ hsg]
      rw [show groupsOf ((g, i) :: s) = g :: groupsOf s from
        List.dedup_cons_of_not_mem (fun h => hg h)]
      rw [List.map_cons]
      exact (List.perm_append_singleton (some g) _).trans (hok.keys_pc.cons (some g))
    · show dictGet (dictInsert st.page_content (some g) _) none = none
      rw [dictGet_insert_ne _ _ _ _ (by simp)]
      exact hok.get_none
    · intro g' hg'
      simp only [List.map_cons, List.mem_cons] at hg'
      push_neg at hg'
      show dictGet (dictInsert st.page_content (some g) _) (some g') = none
      rw [dictGet_insert_ne _ _ _ _ (by simpa using hg'.1)]
      exact hok.get_not_mem g' hg'.2
    · intro g' hg'
      by_cases hgg : g' = g
      · subst hgg
        refine ⟨dictInsert [] i (contents g' i), ?_, ?_, ?_⟩
        · show dictGet (dictInsert st.page_content (some g') _) (some g') = _
          rw [hinner0, dictGet_insert_self]
        · rw [List.filter_cons_of_pos (by simp), hfilter]
          show (keysOf [(i, contents g' i)]).Perm _
          simp [keysOf]
        · intro i' c
          by_cases hii : i' = i
          · subst hii
            show dictGet [(i', contents g' i')] i' = some c ↔ _
            rw [show dictGet [(i', contents g' i')] i' = some (contents g' i') from by
              simp [dictGet]]
            constructor
            · intro hc
              rw [Option.some.injEq] at hc
              exact ⟨by simp, hc.symm⟩
            · intro ⟨_, hc⟩
              rw [hc]
          · show dictGet [(i, contents g' i)] i' = some c ↔ _
            rw [show dictGet [(i, contents g' i)] i' = none from by
              have hii' : ¬ i = i' := fun h => hii h.symm
              simp [dictGet, hii']]
            constructor
            · intro hc
              cases hc
            · intro ⟨h1, _⟩
              rcases List.mem_cons.mp h1 with he | h1'
              · rw [Prod.ext_iff] at he
                exact absurd he.2 hii
              · exact absurd h1' (by
                  intro hmem
                  exact hg (List.mem_map.mpr ⟨(g', i'), hmem, rfl⟩))
      · have hg'' : g' ∈ s.map Prod.fst := by
          simp only [List.map_cons, List.mem_cons] at hg'
          rcases hg' with he | h
          · exact absurd he hgg
          · exact h
        obtain ⟨inner', hget', hkeys', hlook'⟩ := hok.get_mem g' hg''
        refine ⟨inner', ?_, ?_, ?_⟩
        · show dictGet (dictInsert st.page_content (some g) _) (some g') = _
          rw [dictGet_insert_ne _ _ _ _ (by simpa using hgg)]
          exact hget'
        · rw [List.filter_cons_of_neg (by
            simp only [beq_iff_eq]
            intro h
            exact hgg h.symm)]
          exact hkeys'
        · intro i' c
          rw [hlook' i' c]
          constructor
          · intro ⟨h1, h2⟩
            exact ⟨by simp [h1], h2⟩
          · intro ⟨h1, h2⟩
            rcases List.mem_cons.mp h1 with he | h1'
            · rw [Prod.ext_iff] at he
              exact absurd he.1 hgg
            · exact ⟨h1', h2⟩
    · intro g' hg'
      by_cases hgg : g' = g
      · subst hgg
        show dictGet (dictInsert st.merged_chapter_chunk_sizes (some g') (sizes g')) _ = _
        rw [dictGet_insert_self]
      · have hg'' : g' ∈ s.map Prod.fst := by
          simp only [List.map_cons, List.mem_cons] at hg'
          rcases hg' with he | h
          · exact absurd he hgg
          · exact h
        show dictGet (dictInsert st.merged_chapter_chunk_sizes (some g) (sizes g)) _ = _
        rw [dictGet_insert_ne _ _ _ _ (by simpa using hgg)]
        exact hok.get_sizes g' hg''

theorem pc_length (gs : List Nat) (sizes : Nat → Nat) (contents : Nat → Nat → String)
    (s : List (Nat × Nat)) (st : PageState) (hok : StOK gs sizes contents s st) :
    st.page_content.length = (groupsOf s).length := by
  have h := hok.keys_pc.length_eq
  rw [keysOf, List.length_map, List.length_map] at h
  exact h

theorem keysOf_pc_nodup (gs : List Nat) (sizes : Nat → Nat) (contents : Nat → Nat → String)
    (s : List (Nat × Nat)) (st : PageState) (hok : StOK gs sizes contents s st) :
    (keysOf st.page_content).Nodup :=
  hok.keys_pc.nodup_iff.mpr
    (List.Nodup.map (Option.some_injective Nat) (List.nodup_dedup _))

theorem pageComplete_true_of_full (gs : List Nat) (sizes : Nat → Nat)
    (contents : Nat → Nat → String) (hnd : gs.Nodup) (hsz : ∀ g ∈ gs, 1 ≤ sizes g)
    (s : List (Nat × Nat)) (st : PageState) (c : PageLoadCommandChunk)
    (hc : c.total_merged_chapter_num = some gs.length)
    (hok : StOK gs sizes contents s st) (hsnd : s.Nodup)
    (hperm : s.Perm (canonPairs gs sizes)) :
    pageComplete st c = true := by
  have hgperm : (groupsOf s).Perm gs := groupsOf_perm_gs gs sizes hnd hsz s hperm
  simp only [pageComplete, hc, Option.getD_some, Bool.and_eq_true, decide_eq_true_eq,
    List.all_eq_true]
  constructor
  · rw [pc_length gs sizes contents s st hok, hgperm.length_eq]
  · intro gi hgi
    obtain ⟨k, inner⟩ := gi
    have hkmem : k ∈ keysOf st.page_content := List.mem_map.mpr ⟨(k, inner), hgi, rfl⟩
    obtain ⟨g', hg'grp, hke⟩ := List.mem_map.mp (hok.keys_pc.mem_iff.mp hkmem)
    have hg'fst : g' ∈ s.map Prod.fst := (mem_groupsOf s g').mp hg'grp
    have hget : dictGet st.page_content k = some inner :=
      dictGet_eq_some_of_mem _ _ _ (keysOf_pc_nodup gs sizes contents s st hok) hgi
    obtain ⟨inner', hget', hkeys', _⟩ := hok.get_mem g' hg'fst
    rw [hke] at hget'
    rw [hget] at hget'
    rw [Option.some.injEq] at hget'
    subst hget'
    have hg'gs : g' ∈ gs := hgperm.mem_iff.mp hg'grp
    have hIlen : inner.length = sizes g' := by
      have h1 := hkeys'.length_eq
      rw [keysOf, List.length_map, List.length_map] at h1
      rw [h1, filter_length_full gs sizes hnd s hperm g' hg'gs]
    rw [← hke, hok.get_sizes g' hg'fst, Option.getD_some, hIlen]

theorem pageComplete_false_of_partial (gs : List Nat) (sizes : Nat → Nat)
    (contents : Nat → Nat → String) (hnd : gs.Nodup)
    (s : List (Nat × Nat)) (st : PageState) (c : PageLoadCommandChunk) (g₀ i₀ : Nat)
    (hc : c.total_merged_chapter_num = some gs.length)
    (hok : StOK gs sizes contents s st) (hsnd : s.Nodup)
    (hsub : ∀ q ∈ s, q ∈ canonPairs gs sizes)
    (hmiss : (g₀, i₀) ∈ canonPairs gs sizes) (hnotin : (g₀, i₀) ∉ s) :
    pageComplete st c = false := by
  by_contra hcon
  rw [Bool.not_eq_false] at hcon
  simp only [pageComplete, hc, Option.getD_some, Bool.and_eq_true, decide_eq_true_eq,
    List.all_eq_true] at hcon
  obtain ⟨hlen, hall⟩ := hcon
  have hsubp : (groupsOf s).Subperm gs :=
    List.subperm_of_subset (List.nodup_dedup _) (groupsOf_subset_gs gs sizes s hsub)
  have hpclen := pc_length gs sizes contents s st hok
  rw [hpclen] at hlen
  have hgperm : (groupsOf s).Perm gs := hsubp.perm_of_length_le hlen
  have hg₀gs : g₀ ∈ gs := ((mem_canonPairs gs sizes g₀ i₀).mp hmiss).1
  have hg₀ : g₀ ∈ s.map Prod.fst := (mem_groupsOf s g₀).mp (hgperm.mem_iff.mpr hg₀gs)
  obtain ⟨inner, hget, hkeys, _⟩ := hok.get_mem g₀ hg₀
  have hmem_pc : (some g₀, inner) ∈ st.page_content := mem_of_dictGet_eq_some _ _ _ hget
  have hbound := hall (some g₀, inner) hmem_pc
  rw [show ((some g₀, inner) : Option Nat × List (Nat × String)).1 = some g₀ from rfl,
    hok.get_sizes g₀ hg₀, Option.getD_some] at hbound
  have hIlen : inner.length = (s.filter (fun q => q.1 == g₀)).length := by
    have h1 := hkeys.length_eq
    rw [keysOf, List.length_map, List.length_map] at h1
    exact h1
  have hflt := filter_length_partial gs sizes hnd s hsnd hsub g₀ i₀ hmiss hnotin
  rw [show ((some g₀, inner) : Option Nat × List (Nat × String)).2 = inner from rfl] at hbound
  omega

theorem sorted_nodup_nat_eq (l₁ l₂ : List Nat) (hp : l₁.Perm l₂)
    (hs₁ : List.Sorted (fun a b => a ≤ b) l₁) (hs₂ : List.Sorted (fun a b => a ≤ b) l₂)
    (hnd : l₁.Nodup) : l₁ = l₂ := by
  haveI : IsAntisymm Nat (fun a b => a < b) :=
    ⟨fun a b h1 h2 => absurd (lt_trans h1 h2) (lt_irrefl _)⟩
  exact List.eq_of_perm_of_sorted (r := fun a b : Nat => a < b) hp
    ((List.Pairwise.and hs₁ hnd).imp (fun h => lt_of_le_of_ne h.1 h.2))
    ((List.Pairwise.and hs₂ (hp.nodup_iff.mp hnd)).imp (fun h => lt_of_le_of_ne h.1 h.2))

theorem render_inner (g n : Nat) (contents : Nat → Nat → String)
    (s : List (Nat × Nat)) (inner : List (Nat × String))
    (hkeys : (keysOf inner).Perm ((s.filter (fun q => q.1 == g)).map Prod.snd))
    (hlook : ∀ i c, dictGet inner i = some c ↔ (g, i) ∈ s ∧ c = contents g i)
    (hsnd : s.Nodup) (hmem : ∀ i, (g, i) ∈ s ↔ i < n) :
    String.join ((sortBy (fun p => p.1) inner).map Prod.snd) =
      String.join ((List.range n).map (fun i => contents g i)) := by
  have hkeysnd : (keysOf inner).Nodup := hkeys.nodup_iff.mpr (nodup_filtered_snd s g hsnd)
  have hinnernd : inner.Nodup := List.Nodup.of_map Prod.fst hkeysnd
  have htarget_nd : ((List.range n).map (fun i => (i, contents g i))).Nodup :=
    List.Nodup.map (fun a b hab => by rw [Prod.ext_iff] at hab; exact hab.1)
      (List.nodup_range n)
  have hpermI : inner.Perm ((List.range n).map (fun i => (i, contents g i))) := by
    rw [List.perm_ext_iff_of_nodup hinnernd htarget_nd]
    intro q
    obtain ⟨i, c⟩ := q
    rw [mem_iff_dictGet _ _ _ hkeysnd, hlook i c]
    constructor
    · rintro ⟨h1, h2⟩
      subst h2
      exact List.mem_map.mpr ⟨i, List.mem_range.mpr ((hmem i).mp h1), rfl⟩
    · intro h
      obtain ⟨i', hi', he⟩ := List.mem_map.mp h
      rw [Prod.ext_iff] at he
      obtain ⟨he1, he2⟩ := he
      simp only at he1 he2
      rw [← he1, ← he2]
      exact ⟨(hmem i').mpr (List.mem_range.mp hi'), rfl⟩
  have hsort : sortBy (fun p : Nat × String => p.1) inner =
      (List.range n).map (fun i => (i, contents g i)) := by
    rw [sortBy_eq_of_perm (fun p : Nat × String => p.1) hpermI hkeysnd]
    apply sortBy_eq_self_of_sorted
    rw [List.Sorted, List.pairwise_map]
    exact (List.pairwise_lt_range n).imp (fun h => le_of_lt h)
  rw [hsort, List.map_map]
  rfl

theorem renderPage_full (gs : List Nat) (sizes : Nat → Nat) (contents : Nat → Nat → String)
    (hnd : gs.Nodup) (hsz : ∀ g ∈ gs, 1 ≤ sizes g)
    (s : List (Nat × Nat)) (st : PageState)
    (hok : StOK gs sizes contents s st) (hsnd : s.Nodup)
    (hperm : s.Perm (canonPairs gs sizes)) :
    renderPage st = canonContent gs sizes contents := by
  have hgperm : (groupsOf s).Perm gs := groupsOf_perm_gs gs sizes hnd hsz s hperm
  have hkeynd := keysOf_pc_nodup gs sizes contents s st hok
  have hpermKeys : ((sortBy (fun gi : Option Nat × List (Nat × String) => orank gi.1)
      st.page_content).map (fun gi => orank gi.1)).Perm
      ((sortBy (fun g : Nat => g) gs).map (fun g => g + 1)) := by
    have h1 : ((sortBy (fun gi : Option Nat × List (Nat × String) => orank gi.1)
        st.page_content).map (fun gi => orank gi.1)).Perm
        (st.page_content.map (fun gi => orank gi.1)) :=
      (sortBy_perm _ st.page_content).map _
    have h2 : st.page_content.map (fun gi : Option Nat × List (Nat × String) => orank gi.1) =
        (keysOf st.page_content).map orank := by
      rw [keysOf, List.map_map]
      rfl
    have h3 : ((keysOf st.page_content).map orank).Perm
        (((groupsOf s).map some).map orank) := hok.keys_pc.map orank
    have h4 : ((groupsOf s).map some).map orank = (groupsOf s).map (fun g => g + 1) := by
      rw [List.map_map]
      rfl
    have h5 : ((groupsOf s).map (fun g => g + 1)).Perm (gs.map (fun g => g + 1)) :=
      hgperm.map _
    have h6 : (gs.map (fun g => g + 1)).Perm
        ((sortBy (fun g : Nat => g) gs).map (fun g => g + 1)) :=
      ((sortBy_perm (fun g : Nat => g) gs).map _).symm
    exact ((((h1.trans (h2 ▸ h3)).trans (h4 ▸ List.Perm.refl _)).trans h5).trans h6)
  have hkeymap : (sortBy (fun gi : Option Nat × List (Nat × String) => orank gi.1)
      st.page_content).map (fun gi => orank gi.1) =
      (sortBy (fun g : Nat => g) gs).map (fun g => g + 1) := by
    apply sorted_nodup_nat_eq _ _ hpermKeys
    · rw [List.Sorted, List.pairwise_map]
      exact sortBy_sorted _ st.page_content
    · rw [List.Sorted, List.pairwise_map]
      exact (sortBy_sorted (fun g : Nat => g) gs).imp (fun h => by omega)
    · apply (hpermKeys.nodup_iff).mpr
      exact List.Nodup.map (fun a b hab => by omega)
        ((sortBy_perm (fun g : Nat => g) gs).nodup_iff.mpr hnd)
  have hLlen : (sortBy (fun gi : Option Nat × List (Nat × String) => orank gi.1)
      st.page_content).length = (sortBy (fun g : Nat => g) gs).length := by
    have := congrArg List.length hkeymap
    rw [List.length_map, List.length_map] at this
    exact this
  apply congrArg String.join
  apply List.ext_getElem
  · rw [List.length_map, List.length_map, hLlen]
  · intro j h₁ h₂
    rw [List.length_map] at h₁ h₂
    rw [List.getElem_map, List.getElem_map]
    have hjk : orank ((sortBy (fun gi : Option Nat × List (Nat × String) => orank gi.1)
        st.page_content)[j]).1 = (sortBy (fun g : Nat => g) gs)[j] + 1 := by
      have h := congrArg (fun l : List Nat => l[j]?) hkeymap
      simp only [List.getElem?_map] at h
      rw [List.getElem?_eq_getElem h₁, List.getElem?_eq_getElem h₂] at h
      simpa using h
    have hgmem : (sortBy (fun g : Nat => g) gs)[j] ∈ gs :=
      (sortBy_perm (fun g : Nat => g) gs).mem_iff.mp (List.getElem_mem h₂)
    rcases hLj : (sortBy (fun gi : Option Nat × List (Nat × String) => orank gi.1)
        st.page_content)[j] with ⟨k, inner⟩
    rw [hLj] at hjk
    have hk : k = some ((sortBy (fun g : Nat => g) gs)[j]) := by
      cases k with
      | none => simp [orank] at hjk
      | some g' =>
        simp only [orank] at hjk
        rw [show g' = (sortBy (fun g : Nat => g) gs)[j] from by omega]
    have hmemL : (k, inner) ∈ st.page_content := by
      rw [← hLj]
      exact (sortBy_perm _ st.page_content).mem_iff.mp (List.getElem_mem h₁)
    have hget : dictGet st.page_content k = some inner :=
      dictGet_eq_some_of_mem _ _ _ hkeynd hmemL
    have hgfst : (sortBy (fun g : Nat => g) gs)[j] ∈ s.map Prod.fst :=
      (mem_groupsOf s _).mp (hgperm.mem_iff.mpr hgmem)
    obtain ⟨inner', hget', hkeys', hlook'⟩ := hok.get_mem _ hgfst
    rw [← hk, hget] at hget'
    rw [Option.some.injEq] at hget'
    subst hget'
    have hmemIff : ∀ i, ((sortBy (fun g : Nat => g) gs)[j], i) ∈ s ↔
        i < sizes ((sortBy (fun g : Nat => g) gs)[j]) := by
      intro i
      rw [hperm.mem_iff, mem_canonPairs]
      constructor
      · intro h
        exact h.2
      · intro h
        exact ⟨hgmem, h⟩
    simp only [hLj]
    exact render_inner _ _ contents s inner hkeys' hlook' hsnd hmemIff

/-- Unfolding one `pageEvent` iteration of the receive loop when the event
name passes the regex check. -/
theorem loadPageLoop_pageEvent (st : PageState) (event : String) (data : WireChunk)
    (rest : List WireMsg) (hev : isPageChunkEvent event = true) :
    loadPageLoop st (WireMsg.pageEvent event data :: rest) =
      (if pageComplete (stepChunk st (parseWireChunk data)) (parseWireChunk data) then
        PageResult.done (renderPage (stepChunk st (parseWireChunk data)))
      else loadPageLoop (stepChunk st (parseWireChunk data)) rest) := by
  simp only [loadPageLoop]
  rw [if_pos hev]

/-- A list permuted from an injective image is itself the image of a
permutation of the original list. -/
theorem exists_preimage_of_perm_map {α β : Type} [DecidableEq α] [DecidableEq β]
    (f : α → β) (hf : Function.Injective f) :
    ∀ (l : List β) (p : List α), l.Perm (p.map f) → ∃ r : List α, r.Perm p ∧ l = r.map f := by
  intro l
  induction l with
  | nil =>
    intro p h
    have := h.symm.eq_nil
    rw [List.map_eq_nil_iff] at this
    exact ⟨[], by rw [this], rfl⟩
  | cons b l' ih =>
    intro p h
    have hb : b ∈ p.map f := h.mem_iff.mp (List.mem_cons_self b l')
    obtain ⟨a, hap, hfa⟩ := List.mem_map.mp hb
    have hl' : l'.Perm ((p.map f).erase b) := (List.cons_perm_iff_perm_erase.mp h).2
    rw [← hfa, ← List.map_erase hf] at hl'
    obtain ⟨r', hr'perm, hr'eq⟩ := ih (p.erase a) hl'
    refine ⟨a :: r', ?_, ?_⟩
    · exact ((hr'perm.cons a).trans (List.perm_cons_erase hap).symm)
    · rw [List.map_cons, ← hfa, hr'eq]

/-- The receive loop, started in a state that already holds the (distinct)
pairs of `s`, consumes the remaining pairs `r` in any order and finishes
with the canonical rendering, provided `s ++ r` is a permutation of the
complete canonical set. -/
theorem loadPageLoop_canon (gs : List Nat) (sizes : Nat → Nat)
    (contents : Nat → Nat → String) (e : Nat → Nat → String)
    (hnd : gs.Nodup) (hsz : ∀ g ∈ gs, 1 ≤ sizes g)
    (hev : ∀ g i, isPageChunkEvent (e g i) = true) :
    ∀ (r s : List (Nat × Nat)) (st : PageState), r ≠ [] →
      (s ++ r).Perm (canonPairs gs sizes) → StOK gs sizes contents s st →
      loadPageLoop st (r.map (fun q => canonMsg gs sizes contents e q.1 q.2)) =
        PageResult.done (canonContent gs sizes contents) := by
  intro r
  induction r with
  | nil => intro s st hne _ _; exact absurd rfl hne
  | cons q r' ih =>
    intro s st _ hperm hok
    obtain ⟨g, i⟩ := q
    have hndall : (s ++ (g, i) :: r').Nodup :=
      hperm.nodup_iff.mpr (canonPairs_nodup gs sizes hnd)
    rw [List.nodup_append] at hndall
    obtain ⟨hs_nd, hr_nd, hdisj⟩ := hndall
    have hnotin_s : (g, i) ∉ s := by
      intro h
      exact hdisj h (List.mem_cons_self _ _)
    have hok' := StOK_step gs sizes contents s st g i hok hnotin_s
    have hs'nd : ((g, i) :: s).Nodup := by
      rw [List.nodup_cons]
      refine ⟨hnotin_s, hs_nd⟩
    simp only [List.map_cons]
    rw [show canonMsg gs sizes contents e g i =
      WireMsg.pageEvent (e g i) (canonChunk gs.length sizes contents g i) from rfl]
    rw [loadPageLoop_pageEvent st (e g i) (canonChunk gs.length sizes contents g i) _
      (hev g i)]
    cases r' with
    | nil =>
      have hpermFull : ((g, i) :: s).Perm (canonPairs gs sizes) :=
        (List.perm_append_singleton _ _).symm.trans hperm
      have hcomp := pageComplete_true_of_full gs sizes contents hnd hsz ((g, i) :: s)
        (stepChunk st (parseWireChunk (canonChunk gs.length sizes contents g i)))
        (parseWireChunk (canonChunk gs.length sizes contents g i)) rfl hok' hs'nd hpermFull
      rw [if_pos hcomp]
      rw [renderPage_full gs sizes contents hnd hsz ((g, i) :: s) _ hok' hs'nd hpermFull]
    | cons q₀ r'' =>
      obtain ⟨g₀, i₀⟩ := q₀
      have hmiss : (g₀, i₀) ∈ canonPairs gs sizes := by
        refine hperm.mem_iff.mp ?_
        simp
      have hnotin' : (g₀, i₀) ∉ (g, i) :: s := by
        intro h
        rcases List.mem_cons.mp h with he | hmem
        · rw [List.nodup_cons] at hr_nd
          rw [← he] at hr_nd
          exact hr_nd.1 (List.mem_cons_self _ _)
        · exact hdisj hmem (by simp)
      have hsub : ∀ p ∈ (g, i) :: s, p ∈ canonPairs gs sizes := by
        intro p hp
        refine hperm.mem_iff.mp ?_
        rcases List.mem_cons.mp hp with he | hmem
        · rw [he]
          simp
        · exact List.mem_append.mpr (Or.inl hmem)
      have hfalse := pageComplete_false_of_partial gs sizes contents hnd ((g, i) :: s)
        (stepChunk st (parseWireChunk (canonChunk gs.length sizes contents g i)))
        (parseWireChunk (canonChunk gs.length sizes contents g i)) g₀ i₀ rfl hok' hs'nd
        hsub hmiss hnotin'
      rw [hfalse, if_neg Bool.false_ne_true]
      refine ih ((g, i) :: s) _ (by simp) ?_ hok'
      rw [List.cons_append]
      exact List.perm_middle.symm.trans hperm

/-- C5: for every complete set of unit-response chunk envelopes (a nonempty
family of distinct merged groups `gs`, each group `g` carrying chunks
`0 .. sizes g - 1` that declare `sizes g` as the group's chunk total and
`gs.length` in the slot `load_page` reads as the group total, under event
names matching `pageChunk-\d+`), feeding the set to `load_page` in ANY
permutation of delivery order yields `done` with the same final content:
fragments ordered by ascending chunk index within each merged group, groups
by ascending merged-group index. -/
theorem c5_reassembly_order_independent (gs : List Nat) (sizes : Nat → Nat)
    (contents : Nat → Nat → String) (e : Nat → Nat → String) (l : List WireMsg)
    (hne : gs ≠ []) (hnd : gs.Nodup) (hsz : ∀ g ∈ gs, 1 ≤ sizes g)
    (hev : ∀ g i, isPageChunkEvent (e g i) = true)
    (hperm : l.Perm (canonWire gs sizes contents e)) :
    load_page l = PageResult.done (canonContent gs sizes contents) := by
  rw [canonWire_eq] at hperm
  obtain ⟨r, hrperm, hreq⟩ := exists_preimage_of_perm_map
    (fun q : Nat × Nat => canonMsg gs sizes contents e q.1 q.2)
    (canonMsg_injective gs sizes contents e) l (canonPairs gs sizes) hperm
  have hrne : r ≠ [] := by
    intro h
    rw [h] at hrperm
    exact canonPairs_ne_nil gs sizes hne hsz hrperm.symm.eq_nil
  rw [load_page, hreq]
  exact loadPageLoop_canon gs sizes contents e hnd hsz hev r [] ⟨[], []⟩ hrne
    (by simpa using hrperm) (StOK_init gs sizes contents)

/-- A concrete complete set: two merged groups, group 1 with chunks "a","b"
and group 2 with the single chunk "c". -/
def c5gs : List Nat := [1, 2]

def c5sizes : Nat → Nat := fun g => if g = 1 then 2 else 1

def c5contents : Nat → Nat → String :=
  fun g i => if g = 1 then (if i = 0 then "a" else "b") else "c"

def c5e : Nat → Nat → String := fun _ _ => "pageChunk-0"

/-- The envelopes delivered out of order: group 1 chunk 0, then group 2's
chunk, then group 1 chunk 1. -/
def c5msgs : List WireMsg :=
  [WireMsg.pageEvent "pageChunk-0" ⟨2, 0, some 2, some 1, "a"⟩,
   WireMsg.pageEvent "pageChunk-0" ⟨1, 0, some 2, some 2, "c"⟩,
   WireMsg.pageEvent "pageChunk-0" ⟨2, 1, some 2, some 1, "b"⟩]

theorem c5_witness :
    c5msgs.Perm (canonWire c5gs c5sizes c5contents c5e) ∧
    load_page c5msgs = PageResult.done "abc" := by
  refine ⟨by decide, ?_⟩
  have h := c5_reassembly_order_independent c5gs c5sizes c5contents c5e c5msgs
    (by decide) (by decide) (by decide)
    (fun g i => by show isPageChunkEvent "pageChunk-0" = true; decide) (by decide)
  rw [h]
  rfl
